import Mathlib

/-!
Verification of the filename parsing/canonicalization engine, the
category-resolution and destination-path algorithm, and the
conflict-resolution policy of the image sorter フォルダ仕分け v1.10
(src/フォルダ仕分けv1.10.py).

Strings are modelled as `List Char`.  Python's `re` semantics for the
specific patterns used by the program (`NAME_RE` and the two
substitutions of `normalize_filename`) are embedded as explicit
backtracking matchers; `\d` is modelled as the ASCII digits and `\s`
as the whitespace characters relevant here (the program's inputs are
filenames; none of the claims involve exotic Unicode digits).
-/

namespace ImageSorter

abbrev Str := List Char

/-- Whitespace as matched by Python's `\s` / `str.strip()`:
ASCII whitespace plus the common Unicode space characters. -/
def pySpaceChars : Str :=
  [' ', '\t', '\n', '\r', '\x0b', '\x0c', '\x1c', '\x1d', '\x1e', '\x1f',
   '\x85', ' ', ' ', ' ', ' ', ' ', ' ',
   ' ', ' ', ' ', ' ', ' ', ' ', ' ',
   ' ', ' ', ' ', ' ', '　']

def isPySpace (c : Char) : Bool := pySpaceChars.contains c

/-- Python `\d` (modelled as ASCII digits `0`-`9`). -/
def isPyDigit (c : Char) : Bool := '0' ≤ c && c ≤ '9'

/-- ASCII lowercasing, as applied by `str.lower()` / `re.IGNORECASE`
to the extension letters (all extensions are ASCII). -/
def pyLower (c : Char) : Char :=
  if 'A' ≤ c ∧ c ≤ 'Z' then Char.ofNat (c.toNat + 32) else c

/-- `name.replace("＿", "_").replace("·", "").replace("・", "")`
(first line of `normalize_filename`). -/
def replaceSpecial (s : Str) : Str :=
  s.filterMap (fun c =>
    if c = '＿' then some '_'
    else if c = '·' then none
    else if c = '・' then none
    else some c)

/-- Scanner for `re.sub(r"\s*_\s*", "_", name)`, with explicit fuel
(one unit per input position) to keep the definition structurally
recursive. -/
def sub1F : Nat → Str → Str
  | 0, s => s
  | _ + 1, [] => []
  | fuel + 1, c :: rest =>
    if c = '_' then '_' :: sub1F fuel (rest.dropWhile isPySpace)
    else if isPySpace c then
      if (rest.dropWhile isPySpace).head? = some '_' then
        '_' :: sub1F fuel ((rest.dropWhile isPySpace).tail.dropWhile isPySpace)
      else c :: sub1F fuel rest
    else c :: sub1F fuel rest

/-- `re.sub(r"\s*_\s*", "_", name)`: every underscore together with the
whitespace around it is replaced by a single underscore. -/
def sub1 (s : Str) : Str := sub1F s.length s

/-- Scanner for `re.sub(r"\s+\.", ".", name)`, with explicit fuel. -/
def sub2F : Nat → Str → Str
  | 0, s => s
  | _ + 1, [] => []
  | fuel + 1, c :: rest =>
    if isPySpace c then
      if (rest.dropWhile isPySpace).head? = some '.' then
        '.' :: sub2F fuel (rest.dropWhile isPySpace).tail
      else c :: sub2F fuel rest
    else c :: sub2F fuel rest

/-- `re.sub(r"\s+\.", ".", name)`: whitespace immediately before a dot
is removed. -/
def sub2 (s : Str) : Str := sub2F s.length s

/-- `name.strip()`. -/
def pyStrip (s : Str) : Str :=
  ((s.dropWhile isPySpace).reverse.dropWhile isPySpace).reverse

/-- `normalize_filename` (source lines 30-34). -/
def normalize_filename (s : Str) : Str :=
  pyStrip (sub2 (sub1 (replaceSpecial s)))

/-- Take exactly `k` digits (`\d{k}`) off the front. -/
def splitDigits : Nat → Str → Option (Str × Str)
  | 0, s => some ([], s)
  | _ + 1, [] => none
  | k + 1, c :: s =>
    if isPyDigit c then (splitDigits k s).map (fun p => (c :: p.1, p.2))
    else none

/-- The extension whitelist of `NAME_RE`, in the pattern's alternation
order: `png|jpg|jpeg|webp|bmp|gif`. -/
def extsList : List Str :=
  [['p', 'n', 'g'], ['j', 'p', 'g'], ['j', 'p', 'e', 'g'],
   ['w', 'e', 'b', 'p'], ['b', 'm', 'p'], ['g', 'i', 'f']]

/-- `\.(?P<ext>png|jpg|jpeg|webp|bmp|gif)$` with `re.IGNORECASE`;
Python's `$` also matches just before a final newline.  Returns the
(lowercased) whitelist entry, as `parse_filename` lowercases the
extension group. -/
def dotExt : Str → Option Str
  | [] => none
  | c :: t =>
    if c = '.' then
      extsList.find? (fun e => t.map pyLower == e || t.map pyLower == e ++ ['\n'])
    else none

/-- The greedy optional `_?` before the dot, with backtracking. -/
def optU : Str → Option Str
  | [] => dotExt []
  | c :: r2 =>
    if c = '_' then
      match dotExt r2 with
      | some e => some e
      | none => dotExt (c :: r2)
    else dotExt (c :: r2)

/-- First attempt of the greedy optional second sequence
`(?:_\d{5})?`: consume `_` plus five digits, then `_?\.(ext)$`. -/
def afterNumTry2 : Str → Option Str
  | [] => none
  | c :: r2 =>
    if c = '_' then
      match splitDigits 5 r2 with
      | some (_, r3) => optU r3
      | none => none
    else none

/-- The greedy optional second sequence `(?:_\d{5})?` followed by
`_?\.(ext)$`, with backtracking: try with the group first, fall back
to without. -/
def afterNum (r : Str) : Option Str :=
  match afterNumTry2 r with
  | some e => some e
  | none => optU r

/-- What must match after the underscore that terminates `middle`:
`(?P<num>\d{5})(?:_\d{5})?_?\.(?P<ext>…)$`. -/
def tailMatch (s : Str) : Option (Str × Str) :=
  match splitDigits 5 s with
  | some (num, r) =>
    match afterNum r with
    | some e => some (num, e)
    | none => none
  | none => none

/-- The lazy `(?P<middle>.+?)_` : try split points left to right; the
accumulated middle may contain anything but a newline (Python `.`)
and must be non-empty. -/
def middleScan (acc : Str) : Str → Option (Str × Str × Str)
  | [] => none
  | c :: rest =>
    if c = '\n' then none
    else if c = '_' ∧ acc ≠ [] then
      match tailMatch rest with
      | some (num, e) => some (acc.reverse, num, e)
      | none => middleScan (c :: acc) rest
    else middleScan (c :: acc) rest

structure FileNameRecord where
  date : Str
  content : Str
  char : Str
  face : Str
  middle : Str
  num : Str
  ext : Str
deriving DecidableEq, Repr

/-- One `(?P<x>[^_]+)_` field: a non-empty run of non-underscores,
then the literal underscore. -/
def splitField (s : Str) : Option (Str × Str) :=
  match s.takeWhile (fun c => c ≠ '_'), s.dropWhile (fun c => c ≠ '_') with
  | [], _ => none
  | f, c :: r => if c = '_' then some (f, r) else none
  | _, [] => none

/-- `NAME_RE.match` (source lines 37-49) on an (already normalized)
name, returning the named groups. -/
def matchName (s : Str) : Option FileNameRecord :=
  match splitDigits 8 s with
  | none => none
  | some (d, s1) =>
    match s1 with
    | [] => none
    | u :: s2 =>
      if u = '_' then
        match splitField s2 with
        | some (c, s3) =>
          match splitField s3 with
          | some (h, s4) =>
            match splitField s4 with
            | some (f, s5) =>
              match middleScan [] s5 with
              | some (m, num, ext) => some ⟨d, c, h, f, m, num, ext⟩
              | none => none
            | none => none
          | none => none
        | none => none
      else none

/-- `parse_filename` (source lines 51-56). -/
def parse_filename (s : Str) : Option FileNameRecord :=
  matchName (normalize_filename s)

/-- `build_canonical_name` (source lines 58-59). -/
def build_canonical_name (r : FileNameRecord) : Str :=
  r.date ++ '_' :: r.content ++ '_' :: r.char ++ '_' :: r.face ++
    '_' :: r.middle ++ '_' :: r.num ++ '.' :: r.ext

/-! ## Path planning (`safe_join`, folder order) -/

/-- One segment of `safe_join`:
`str(s).strip().replace("\\", "_").replace("/", "_")`. -/
def sanitizeSeg (s : Str) : Str :=
  (pyStrip s).map (fun c => if c = '\\' then '_' else if c = '/' then '_' else c)

/-- `safe_join` (source lines 61-67); paths are modelled as lists of
segments. -/
def safe_join (base : List Str) (parts : List Str) : List Str :=
  parts.foldl
    (fun p s => let s' := sanitizeSeg s; if s' ≠ [] then p ++ [s'] else p)
    base

/-- The category dictionary built by `build_category_from_excel_row`. -/
structure Cats where
  content : Str
  character : Str
  face : Str
  body : Str
  backg : Str
  photo : Str
  light : Str
deriving DecidableEq, Repr

def colContent : Str := "content".toList
def colCharacter : Str := "character".toList
def colFace : Str := "factor_顔".toList
def colBody : Str := "factor_体・服装・小物".toList
def colBackg : Str := "factor_背景環境".toList
def colPhoto : Str := "factor_写真の写り方".toList
def colLight : Str := "factor_光雰囲気".toList
def colPose : Str := "factor_ポーズ".toList

/-- The `""`/`"nan"`/`"None"` normalization applied to each slot
(source lines 239-241). -/
def nanFilter (v : Str) : Str :=
  if v = [] ∨ v = "nan".toList ∨ v = "None".toList then [] else v

/-- `build_category_from_excel_row` (source lines 223-242): a row is a
function from column name to the `str()`-rendered cell (missing
columns yield `""` via `row.get(col, "")`).  The pose column
`factor_ポーズ` is never read. -/
def build_category_from_excel_row (row : Str → Str) : Cats :=
  let val := fun col => pyStrip (row col)
  { content := nanFilter (val colContent)
    character := nanFilter (val colCharacter)
    face := nanFilter (val colFace)
    body := nanFilter (val colBody)
    backg := nanFilter (val colBackg)
    photo := nanFilter (val colPhoto)
    light := nanFilter (val colLight) }

/-- The fixed folder order of v1.10 (source line 371), with empty
parts dropped (line 372). -/
def plannedParts (mode : Str) (cats : Cats) (date : Str) : List Str :=
  [mode, cats.content, cats.character, cats.face, cats.body, cats.backg,
    cats.photo, cats.light, date].filter (fun p => p ≠ [])

/-- `dest_dir` of the main loop (source lines 374-376): `safe_join`
over the parts, then the batch tag appended raw when non-empty. -/
def dest_dir (root : List Str) (mode : Str) (cats : Cats) (date : Str)
    (batch : Str) : List Str :=
  let d := safe_join root (plannedParts mode cats date)
  if batch ≠ [] then d ++ [batch] else d

/-- Filename-sourced fallback categories (source lines 358-367). -/
def fallbackCats (r : FileNameRecord) : Cats :=
  ⟨r.content, r.char, r.face, r.middle, [], [], []⟩

/-! ## Conflict resolution (`ensure_unique_path`, the four policies) -/

/-- A filesystem path: directory segments, filename stem and suffix
(the suffix includes the leading dot, as `pathlib`'s `.suffix`). -/
structure PPath where
  dir : List Str
  stem : Str
  ext : Str
deriving DecidableEq, Repr

def PPath.name (p : PPath) : Str := p.stem ++ p.ext

/-- Decimal digit characters, as rendered by Python's `f"{i}"`. -/
def digitChar : Nat → Char
  | 0 => '0' | 1 => '1' | 2 => '2' | 3 => '3' | 4 => '4'
  | 5 => '5' | 6 => '6' | 7 => '7' | 8 => '8' | 9 => '9'
  | _ => '*'

/-- Decimal rendering of a natural number (`f"{i}"`), with fuel to
stay structurally recursive. -/
def natDigitsF : Nat → Nat → Str
  | 0, _ => []
  | fuel + 1, n =>
    if n < 10 then [digitChar n]
    else natDigitsF fuel (n / 10) ++ [digitChar (n % 10)]

def natDigits (n : Nat) : Str := natDigitsF (n + 1) n

/-- `path.with_name(f"{stem}_{i}{ext}")` (source line 74). -/
def withSuffixIdx (p : PPath) (i : Nat) : PPath :=
  { p with stem := p.stem ++ '_' :: natDigits i }

/-- The search loop of `ensure_unique_path` (source lines 72-76): try
`i = 2, 3, …` until the candidate does not exist.  `fuel` bounds the
loop; `ensure_unique_path` passes enough fuel for a free candidate to
be found (the Python loop is unbounded but terminates on any finite
directory). -/
def firstFree (fs : List PPath) (p : PPath) : Nat → Nat → PPath
  | i, 0 => withSuffixIdx p i
  | i, fuel + 1 =>
    if withSuffixIdx p i ∈ fs then firstFree fs p (i + 1) fuel
    else withSuffixIdx p i

/-- `ensure_unique_path` (source lines 69-76), over the list `fs` of
existing paths. -/
def ensure_unique_path (fs : List PPath) (p : PPath) : PPath :=
  if p ∈ fs then firstFree fs p 2 (fs.length + 1) else p

inductive Policy | dup | skip | overwrite | hash
deriving DecidableEq, Repr

/-- The per-run counters of the main loop (source line 317). -/
structure Counters where
  moved : Nat
  copied : Nat
  skipped_unmatched : Nat
  skipped_small : Nat
  skipped_conflict : Nat
  skipped_hash_dup : Nat
  overwritten : Nat
  dupped : Nat
deriving DecidableEq, Repr

/-- `find_same_hash` (source lines 87-96): first file in the
destination directory whose hash equals `digest`.  The hash function
is a parameter (`sha1sum` in the source). -/
def find_same_hash {α β : Type} [DecidableEq β] (hashFn : α → β)
    (entries : List (PPath × α)) (digest : β) : Option (PPath × α) :=
  entries.find? (fun e => hashFn e.2 = digest)

def Counters.bumpPlaced (cnt : Counters) (copy : Bool) : Counters :=
  if copy then { cnt with copied := cnt.copied + 1 }
  else { cnt with moved := cnt.moved + 1 }

/-- The conflict-policy stage of the main loop for one file (source
lines 382-405): destination-directory contents, counters, and the
final placed path (`none` when the file was skipped).  Note that the
source increments neither `overwritten` nor `dupped` anywhere. -/
def placeStep {α β : Type} [DecidableEq β] (policy : Policy) (copy : Bool)
    (hashFn : α → β) (entries : List (PPath × α)) (cnt : Counters)
    (dest_path : PPath) (srcContent : α) :
    List (PPath × α) × Counters × Option PPath :=
  if policy = .hash ∧
      (find_same_hash hashFn entries (hashFn srcContent)).isSome then
    (entries, { cnt with skipped_hash_dup := cnt.skipped_hash_dup + 1 }, none)
  else if dest_path ∈ entries.map Prod.fst then
    if policy = .skip then
      (entries, { cnt with skipped_conflict := cnt.skipped_conflict + 1 }, none)
    else if policy = .overwrite then
      ((dest_path, srcContent) :: entries.filter (fun e => e.1 ≠ dest_path),
        cnt.bumpPlaced copy, some dest_path)
    else
      let final := ensure_unique_path (entries.map Prod.fst) dest_path
      ((final, srcContent) :: entries, cnt.bumpPlaced copy, some final)
  else
    ((dest_path, srcContent) :: entries, cnt.bumpPlaced copy, some dest_path)

/-- The canonical-name target path `f.with_name(canonical)` of the
rename stage, at the stem/suffix level. -/
def canonicalPath (dir : List Str) (r : FileNameRecord) : PPath :=
  ⟨dir,
    r.date ++ '_' :: r.content ++ '_' :: r.char ++ '_' :: r.face ++
      '_' :: r.middle ++ '_' :: r.num,
    '.' :: r.ext⟩

/-- The rename-to-canonical stage (source lines 333-347): the path
carried into category resolution and placement for this file.  In the
source, `f = new_path` is executed outside the `try`/`except`, so the
carried path does not depend on whether the rename raised
(`renameOk`), nor on `dryRun`. -/
def renameStep (fsDir : List PPath) (f : PPath) (r : FileNameRecord)
    (dryRun renameOk : Bool) : PPath :=
  let canonical := canonicalPath f.dir r
  if canonical.name ≠ f.name then
    if canonical ∈ fsDir then ensure_unique_path fsDir canonical
    else canonical
  else f

/-! ## Row map and category lookup -/

/-- `row_map` construction (source lines 310-315): an
insertion-ordered dictionary keyed by the stripped `filename_prefix`;
empty keys are skipped; assigning to an existing key updates it in
place. -/
def rowMapInsert (m : List (Str × Cats)) (kv : Str × Cats) :
    List (Str × Cats) :=
  let key := pyStrip kv.1
  if key = [] then m
  else if key ∈ m.map Prod.fst then
    m.map (fun e => if e.1 = key then (key, kv.2) else e)
  else m ++ [(key, kv.2)]

def buildRowMap (rows : List (Str × Cats)) : List (Str × Cats) :=
  rows.foldl rowMapInsert []

/-- The category lookup of the main loop (source lines 350-357):
exact `row_map.get(stem)` first, then the first key in iteration
order that is a prefix of the stem; `none` when `row_map` is empty or
nothing matches (the caller then falls back to `fallbackCats`). -/
def lookupCats (m : List (Str × Cats)) (stem : Str) : Option Cats :=
  if m = [] then none
  else
    match m.find? (fun e => e.1 = stem) with
    | some e => some e.2
    | none => (m.find? (fun e => e.1.isPrefixOf stem)).map Prod.snd

/-! ## Supporting lemmas -/

theorem safe_join_eq (parts : List Str) (base : List Str) :
    safe_join base parts =
      base ++ (parts.map sanitizeSeg).filter (fun s => s ≠ []) := by
  induction parts generalizing base with
  | nil => simp [safe_join]
  | cons s parts ih =>
    have step : safe_join base (s :: parts) =
        safe_join (if sanitizeSeg s ≠ [] then base ++ [sanitizeSeg s] else base)
          parts := rfl
    by_cases hs : sanitizeSeg s = []
    · rw [step, ih]; simp [hs]
    · rw [step, ih]; simp [hs, List.append_assoc]

/-! ## C3: folder order, absent-slot skipping, batch tag -/

/-- C3: the planned destination directory consists of exactly the
present (non-empty) values in the fixed order mode, content,
character, face, body, background, photo-style, lighting, date —
absent slots contribute no segment, so each present deeper slot
immediately follows the nearest present ancestor — a non-empty batch
tag is appended as one final segment, and no empty segment appears. -/
theorem planned_dir_fixed_order (root : List Str) (mode : Str) (cats : Cats)
    (date : Str) (batch : Str)
    (hsan : ∀ v ∈ [mode, cats.content, cats.character, cats.face, cats.body,
      cats.backg, cats.photo, cats.light, date], sanitizeSeg v = v)
    (hroot : [] ∉ root) :
    dest_dir root mode cats date batch =
      root ++
        ([mode, cats.content, cats.character, cats.face, cats.body,
          cats.backg, cats.photo, cats.light, date].filter (fun p => p ≠ [])) ++
        (if batch = [] then [] else [batch]) ∧
    [] ∉ dest_dir root mode cats date batch := by
  have key : safe_join root (plannedParts mode cats date) =
      root ++ ([mode, cats.content, cats.character, cats.face, cats.body,
        cats.backg, cats.photo, cats.light, date].filter (fun p => p ≠ [])) := by
    rw [safe_join_eq, plannedParts]
    congr 1
    rw [List.map_congr_left (fun v hv => hsan v (List.mem_of_mem_filter hv)),
      List.map_id', List.filter_filter]
    exact List.filter_congr (fun v _ => Bool.and_self _)
  have hK : [] ∉ root ++ ([mode, cats.content, cats.character, cats.face,
      cats.body, cats.backg, cats.photo, cats.light, date].filter
        (fun p => p ≠ [])) := by
    intro hx
    rcases List.mem_append.1 hx with hx | hx
    · exact hroot hx
    · have := List.of_mem_filter hx; simp at this
  constructor
  · rw [dest_dir, key]
    by_cases hb : batch = [] <;> simp [hb]
  · intro hmem
    rw [dest_dir, key] at hmem
    by_cases hb : batch = []
    · rw [if_neg (fun hcon => hcon hb)] at hmem
      exact hK hmem
    · rw [if_pos hb] at hmem
      rcases List.mem_append.1 hmem with hx | hx
      · exact hK hx
      · simp at hx; exact hb hx

/-- Witness for C3, on the spec's absent-slot example: `background`
and `photo-style` absent, `lighting` present. -/
theorem planned_dir_fixed_order_witness :
    dest_dir ["root".toList] "SFW".toList
        ⟨"illustA".toList, "charX".toList, "faceY".toList, "poseZ".toList,
          [], [], "moody".toList⟩ "20240102".toList [] =
      ["root".toList] ++
        (["SFW".toList, "illustA".toList, "charX".toList, "faceY".toList,
          "poseZ".toList, ([] : Str), ([] : Str), "moody".toList,
          "20240102".toList].filter (fun p => p ≠ [])) ++
        (if ([] : Str) = [] then [] else [[]]) ∧
    [] ∉ dest_dir ["root".toList] "SFW".toList
        ⟨"illustA".toList, "charX".toList, "faceY".toList, "poseZ".toList,
          [], [], "moody".toList⟩ "20240102".toList [] :=
  planned_dir_fixed_order _ _ _ _ _ (by decide) (by decide)

/-! ## C4: pose column noninterference -/

/-- C4: two rows that agree on every column except `factor_ポーズ`
resolve to the same category set and the same planned destination
directory: the pose column never influences the output. -/
theorem pose_noninterference (r₁ r₂ : Str → Str)
    (h : ∀ c, c ≠ colPose → r₁ c = r₂ c) :
    build_category_from_excel_row r₁ = build_category_from_excel_row r₂ ∧
    ∀ root mode date batch,
      dest_dir root mode (build_category_from_excel_row r₁) date batch =
        dest_dir root mode (build_category_from_excel_row r₂) date batch := by
  have hcats : build_category_from_excel_row r₁ = build_category_from_excel_row r₂ := by
    simp only [build_category_from_excel_row]
    rw [h colContent (by decide), h colCharacter (by decide),
      h colFace (by decide), h colBody (by decide), h colBackg (by decide),
      h colPhoto (by decide), h colLight (by decide)]
  exact ⟨hcats, fun root mode date batch => by rw [hcats]⟩

/-- Witness for C4: a row with a non-empty pose value against the
same row with the pose column blanked. -/
theorem pose_noninterference_witness :
    build_category_from_excel_row
        (fun c => if c = colPose then "standing".toList else "v".toList) =
      build_category_from_excel_row (fun _ => "v".toList) ∧
    ∀ root mode date batch,
      dest_dir root mode
          (build_category_from_excel_row
            (fun c => if c = colPose then "standing".toList else "v".toList))
          date batch =
        dest_dir root mode (build_category_from_excel_row (fun _ => "v".toList))
          date batch :=
  pose_noninterference _ _ (fun c hc => if_neg hc)

/-! ## C9: the `overwritten` counter is never incremented (code bug) -/

/-- C9 (failing run): under the `overwrite` policy with the planned
destination already occupied, the existing file is deleted and the
new file placed — yet the reported `overwritten` counter stays `0`
(the source initializes and prints `overwritten` but never increments
it), while `moved` is incremented instead. -/
theorem overwritten_counter_never_incremented :
    placeStep (α := Nat) (β := Nat) Policy.overwrite false id
        [(⟨[], "a".toList, ".png".toList⟩, 1)] ⟨0, 0, 0, 0, 0, 0, 0, 0⟩
        ⟨[], "a".toList, ".png".toList⟩ 2 =
      ([(⟨[], "a".toList, ".png".toList⟩, 2)], ⟨1, 0, 0, 0, 0, 0, 0, 0⟩,
        some ⟨[], "a".toList, ".png".toList⟩) ∧
    (placeStep (α := Nat) (β := Nat) Policy.overwrite false id
        [(⟨[], "a".toList, ".png".toList⟩, 1)] ⟨0, 0, 0, 0, 0, 0, 0, 0⟩
        ⟨[], "a".toList, ".png".toList⟩ 2).2.1.overwritten = 0 := by
  constructor <;> decide

/-! ## C6: hash policy skips byte-identical content -/

/-- C6: under the `hash` policy, when the source file's content hash
equals the hash of some existing file in the destination directory,
the file is skipped: the directory contents are unchanged (no move or
copy), nothing is placed, and only the duplicate-content counter is
incremented. -/
theorem hash_policy_skips_duplicate {α β : Type} [DecidableEq β]
    (hashFn : α → β) (copy : Bool) (entries : List (PPath × α))
    (cnt : Counters) (dest : PPath) (src : α)
    (hdup : ∃ e ∈ entries, hashFn e.2 = hashFn src) :
    placeStep Policy.hash copy hashFn entries cnt dest src =
      (entries, { cnt with skipped_hash_dup := cnt.skipped_hash_dup + 1 },
        none) := by
  have hsome : (find_same_hash hashFn entries (hashFn src)).isSome := by
    rw [find_same_hash, List.find?_isSome]
    obtain ⟨e, he, heq⟩ := hdup
    exact ⟨e, he, by simpa using heq⟩
  rw [placeStep, if_pos ⟨rfl, hsome⟩]

/-- Witness for C6: a destination directory holding a file with the
same content hash as the source. -/
theorem hash_policy_skips_duplicate_witness :
    (∃ e ∈ [((⟨[], "b".toList, ".png".toList⟩ : PPath), (5 : Nat))],
      id e.2 = id 5) ∧
    placeStep Policy.hash false (id : Nat → Nat)
        [(⟨[], "b".toList, ".png".toList⟩, 5)] ⟨0, 0, 0, 0, 0, 0, 0, 0⟩
        ⟨[], "a".toList, ".png".toList⟩ 5 =
      ([(⟨[], "b".toList, ".png".toList⟩, 5)], ⟨0, 0, 0, 0, 0, 1, 0, 0⟩,
        none) :=
  ⟨⟨((⟨[], "b".toList, ".png".toList⟩ : PPath), (5 : Nat)), by simp, rfl⟩,
    hash_policy_skips_duplicate _ _ _ _ _ _
      ⟨((⟨[], "b".toList, ".png".toList⟩ : PPath), (5 : Nat)), by simp, rfl⟩⟩

/-! ## Decimal rendering and `ensure_unique_path` -/

theorem natDigitsF_congr (n : Nat) : ∀ f g, n < f → n < g →
    natDigitsF f n = natDigitsF g n := by
  induction n using Nat.strong_induction_on with
  | _ n ih =>
    intro f g hf hg
    cases f with
    | zero => omega
    | succ f =>
      cases g with
      | zero => omega
      | succ g =>
        simp only [natDigitsF]
        by_cases h10 : n < 10
        · simp [h10]
        · have hdiv : n / 10 < n := Nat.div_lt_self (by omega) (by omega)
          rw [if_neg h10, if_neg h10,
            ih (n / 10) hdiv f g (by omega) (by omega)]

theorem natDigits_eq (n : Nat) : natDigits n =
    if n < 10 then [digitChar n]
    else natDigits (n / 10) ++ [digitChar (n % 10)] := by
  have hdiv : ∀ m : Nat, ¬m < 10 → m / 10 < m :=
    fun m hm => Nat.div_lt_self (by omega) (by omega)
  rw [natDigits]
  simp only [natDigitsF]
  by_cases h10 : n < 10
  · simp [h10]
  · rw [if_neg h10, if_neg h10, natDigits,
      natDigitsF_congr (n / 10) n (n / 10 + 1) (hdiv n h10) (by omega)]

theorem digitChar_injOn : ∀ a b, a < 10 → b < 10 → digitChar a = digitChar b →
    a = b := by
  intro a b ha hb
  interval_cases a <;> interval_cases b <;> decide

theorem natDigits_ne_nil (n : Nat) : natDigits n ≠ [] := by
  rw [natDigits_eq]
  by_cases h : n < 10 <;> simp [h]

theorem natDigits_length_pos (n : Nat) : 0 < (natDigits n).length := by
  cases h : natDigits n with
  | nil => exact absurd h (natDigits_ne_nil n)
  | cons a l => simp

theorem natDigits_inj : ∀ m n, natDigits m = natDigits n → m = n := by
  intro m
  induction m using Nat.strong_induction_on with
  | _ m ih =>
    intro n h
    rw [natDigits_eq m, natDigits_eq n] at h
    by_cases hm : m < 10 <;> by_cases hn : n < 10
    · rw [if_pos hm, if_pos hn] at h
      simp only [List.cons.injEq] at h
      exact digitChar_injOn m n hm hn h.1
    · rw [if_pos hm, if_neg hn] at h
      have hlen := congrArg List.length h
      rw [List.length_append] at hlen
      simp only [List.length_cons, List.length_nil] at hlen
      have hpos := natDigits_length_pos (n / 10)
      omega
    · rw [if_neg hm, if_pos hn] at h
      have hlen := congrArg List.length h
      rw [List.length_append] at hlen
      simp only [List.length_cons, List.length_nil] at hlen
      have hpos := natDigits_length_pos (m / 10)
      omega
    · rw [if_neg hm, if_neg hn] at h
      obtain ⟨h1, h2⟩ := List.append_inj' h (by simp)
      have hdm : m / 10 < m := Nat.div_lt_self (by omega) (by omega)
      have h3 : m / 10 = n / 10 := ih (m / 10) hdm _ h1
      simp only [List.cons.injEq] at h2
      have h4 : m % 10 = n % 10 :=
        digitChar_injOn _ _ (Nat.mod_lt _ (by omega)) (Nat.mod_lt _ (by omega))
          h2.1
      omega

theorem withSuffixIdx_inj (p : PPath) {i j : Nat}
    (h : withSuffixIdx p i = withSuffixIdx p j) : i = j := by
  have hs : p.stem ++ '_' :: natDigits i = p.stem ++ '_' :: natDigits j :=
    congrArg PPath.stem h
  have h2 := List.append_cancel_left hs
  simp only [List.cons.injEq] at h2
  exact natDigits_inj _ _ h2.2

theorem firstFree_spec (fs : List PPath) (p : PPath) :
    ∀ fuel i, (∃ j, i ≤ j ∧ j ≤ i + fuel ∧ withSuffixIdx p j ∉ fs) →
      ∃ j, i ≤ j ∧ firstFree fs p i fuel = withSuffixIdx p j ∧
        withSuffixIdx p j ∉ fs ∧
        ∀ k, i ≤ k → k < j → withSuffixIdx p k ∈ fs := by
  intro fuel
  induction fuel with
  | zero =>
    rintro i ⟨j, hij, hj, hfree⟩
    have hji : j = i := by omega
    subst hji
    exact ⟨j, Nat.le_refl _, rfl, hfree, fun k h1 h2 => by omega⟩
  | succ fuel ih =>
    rintro i ⟨j, hij, hj, hfree⟩
    by_cases hi : withSuffixIdx p i ∈ fs
    · have hne : j ≠ i := fun he => hfree (he ▸ hi)
      obtain ⟨j', h1, h2, h3, h4⟩ := ih (i + 1) ⟨j, by omega, by omega, hfree⟩
      refine ⟨j', by omega, ?_, h3, ?_⟩
      · rw [firstFree, if_pos hi]; exact h2
      · intro k hk1 hk2
        rcases Nat.eq_or_lt_of_le hk1 with he | hl
        · exact he ▸ hi
        · exact h4 k hl hk2
    · exact ⟨i, Nat.le_refl _, by rw [firstFree, if_neg hi], hi,
        fun k h1 h2 => by omega⟩

theorem exists_free_idx (fs : List PPath) (p : PPath) :
    ∃ j, 2 ≤ j ∧ j ≤ 2 + (fs.length + 1) ∧ withSuffixIdx p j ∉ fs := by
  by_contra hcon
  push_neg at hcon
  have hnodup : ((List.range (fs.length + 2)).map
      (fun k => withSuffixIdx p (k + 2))).Nodup := by
    refine List.Nodup.map ?_ (List.nodup_range _)
    intro a b hab
    have := withSuffixIdx_inj p hab
    omega
  have hsub : ((List.range (fs.length + 2)).map
      (fun k => withSuffixIdx p (k + 2))) ⊆ fs := by
    intro x hx
    rw [List.mem_map] at hx
    obtain ⟨k, hk, rfl⟩ := hx
    rw [List.mem_range] at hk
    exact hcon (k + 2) (by omega) (by omega)
  have hlen := (List.subperm_of_subset hnodup hsub).length_le
  simp at hlen

theorem ensure_unique_path_spec (fs : List PPath) (p : PPath) (hp : p ∈ fs) :
    ∃ j, 2 ≤ j ∧ ensure_unique_path fs p = withSuffixIdx p j ∧
      withSuffixIdx p j ∉ fs ∧
      ∀ k, 2 ≤ k → k < j → withSuffixIdx p k ∈ fs := by
  obtain ⟨j, h1, h2, h3⟩ := exists_free_idx fs p
  obtain ⟨j', hj1, hj2, hj3, hj4⟩ :=
    firstFree_spec fs p (fs.length + 1) 2 ⟨j, h1, by omega, h3⟩
  exact ⟨j', hj1, by rw [ensure_unique_path, if_pos hp]; exact hj2, hj3, hj4⟩

/-! ## C5: `dup` policy places at the smallest free numeric suffix -/

/-- C5: under the `dup` policy, when the planned destination is
already occupied the file is placed at the alternate path with the
smallest numeric suffix `_2, _3, …` whose path does not exist; and
placing three files that canonicalize to the same name into the same
(initially empty) directory yields three distinct files: the first
unsuffixed, the others suffixed `_2` and `_3`. -/
theorem dup_policy_smallest_free_suffix {α β : Type} [DecidableEq β]
    (hashFn : α → β) (copy : Bool) (entries : List (PPath × α))
    (cnt : Counters) (p : PPath) (src : α)
    (hocc : p ∈ entries.map Prod.fst) :
    (∃ j, 2 ≤ j ∧
      placeStep Policy.dup copy hashFn entries cnt p src =
        ((withSuffixIdx p j, src) :: entries, cnt.bumpPlaced copy,
          some (withSuffixIdx p j)) ∧
      withSuffixIdx p j ∉ entries.map Prod.fst ∧
      ∀ k, 2 ≤ k → k < j → withSuffixIdx p k ∈ entries.map Prod.fst) ∧
    (placeStep (α := Nat) (β := Nat) Policy.dup false id [] ⟨0, 0, 0, 0, 0, 0, 0, 0⟩
        ⟨[], "n".toList, ".png".toList⟩ 1 =
      ([(⟨[], "n".toList, ".png".toList⟩, 1)], ⟨1, 0, 0, 0, 0, 0, 0, 0⟩,
        some ⟨[], "n".toList, ".png".toList⟩) ∧
     placeStep (α := Nat) (β := Nat) Policy.dup false id
        [(⟨[], "n".toList, ".png".toList⟩, 1)] ⟨1, 0, 0, 0, 0, 0, 0, 0⟩
        ⟨[], "n".toList, ".png".toList⟩ 2 =
      ([(⟨[], "n_2".toList, ".png".toList⟩, 2),
        (⟨[], "n".toList, ".png".toList⟩, 1)], ⟨2, 0, 0, 0, 0, 0, 0, 0⟩,
        some ⟨[], "n_2".toList, ".png".toList⟩) ∧
     placeStep (α := Nat) (β := Nat) Policy.dup false id
        [(⟨[], "n_2".toList, ".png".toList⟩, 2),
         (⟨[], "n".toList, ".png".toList⟩, 1)] ⟨2, 0, 0, 0, 0, 0, 0, 0⟩
        ⟨[], "n".toList, ".png".toList⟩ 3 =
      ([(⟨[], "n_3".toList, ".png".toList⟩, 3),
        (⟨[], "n_2".toList, ".png".toList⟩, 2),
        (⟨[], "n".toList, ".png".toList⟩, 1)], ⟨3, 0, 0, 0, 0, 0, 0, 0⟩,
        some ⟨[], "n_3".toList, ".png".toList⟩) ∧
     (⟨[], "n".toList, ".png".toList⟩ : PPath) ≠ ⟨[], "n_2".toList, ".png".toList⟩ ∧
     (⟨[], "n".toList, ".png".toList⟩ : PPath) ≠ ⟨[], "n_3".toList, ".png".toList⟩ ∧
     (⟨[], "n_2".toList, ".png".toList⟩ : PPath) ≠ ⟨[], "n_3".toList, ".png".toList⟩) := by
  constructor
  · obtain ⟨j, h1, h2, h3, h4⟩ :=
      ensure_unique_path_spec (entries.map Prod.fst) p hocc
    refine ⟨j, h1, ?_, h3, h4⟩
    rw [placeStep, if_neg (fun hcon => Policy.noConfusion hcon.1),
      if_pos hocc, if_neg (fun hcon => Policy.noConfusion hcon),
      if_neg (fun hcon => Policy.noConfusion hcon)]
    rw [h2]
  · refine ⟨by decide, by decide, by decide, by decide, by decide, by decide⟩

/-- Witness for C5 at a concrete occupied destination. -/
theorem dup_policy_smallest_free_suffix_witness :
    ((⟨[], "n".toList, ".png".toList⟩ : PPath) ∈
      ([(⟨[], "n".toList, ".png".toList⟩, 7)] :
        List (PPath × Nat)).map Prod.fst) ∧
    (∃ j, 2 ≤ j ∧
      placeStep Policy.dup false (id : Nat → Nat)
          [(⟨[], "n".toList, ".png".toList⟩, 7)] ⟨0, 0, 0, 0, 0, 0, 0, 0⟩
          ⟨[], "n".toList, ".png".toList⟩ 9 =
        ((withSuffixIdx ⟨[], "n".toList, ".png".toList⟩ j, 9) ::
            [(⟨[], "n".toList, ".png".toList⟩, 7)],
          Counters.bumpPlaced ⟨0, 0, 0, 0, 0, 0, 0, 0⟩ false,
          some (withSuffixIdx ⟨[], "n".toList, ".png".toList⟩ j)) ∧
      withSuffixIdx ⟨[], "n".toList, ".png".toList⟩ j ∉
        ([(⟨[], "n".toList, ".png".toList⟩, 7)] :
          List (PPath × Nat)).map Prod.fst ∧
      ∀ k, 2 ≤ k → k < j →
        withSuffixIdx ⟨[], "n".toList, ".png".toList⟩ k ∈
          ([(⟨[], "n".toList, ".png".toList⟩, 7)] :
            List (PPath × Nat)).map Prod.fst) :=
  ⟨by decide,
    (dup_policy_smallest_free_suffix id false _ _ _ 9 (by decide)).1⟩

/-! ## C10: canonical-rename collision in the source directory -/

theorem canonicalPath_name (dir : List Str) (r : FileNameRecord) :
    (canonicalPath dir r).name = build_canonical_name r := by
  simp [canonicalPath, PPath.name, build_canonical_name, List.append_assoc]

theorem withSuffixIdx_name_ne (p : PPath) (j : Nat) :
    (withSuffixIdx p j).name ≠ p.name := by
  intro hcon
  have hlen := congrArg List.length hcon
  simp only [withSuffixIdx, PPath.name, List.length_append,
    List.length_cons] at hlen
  have := natDigits_length_pos j
  omega

/-- C10: when the canonical name already exists as a path in the
file's own directory at rename time, the file is renamed to the first
free numerically suffixed variant (`stem_2`, `stem_3`, …) of the
canonical name, so the filename carried into category resolution,
planning and placement differs from the canonical render of the
parsed record. -/
theorem canonical_rename_collision (fsDir : List PPath) (f : PPath)
    (r : FileNameRecord) (dryRun renameOk : Bool)
    (hne : (canonicalPath f.dir r).name ≠ f.name)
    (hex : canonicalPath f.dir r ∈ fsDir) :
    (∃ j, 2 ≤ j ∧
      renameStep fsDir f r dryRun renameOk =
        withSuffixIdx (canonicalPath f.dir r) j ∧
      withSuffixIdx (canonicalPath f.dir r) j ∉ fsDir ∧
      ∀ k, 2 ≤ k → k < j → withSuffixIdx (canonicalPath f.dir r) k ∈ fsDir) ∧
    (renameStep fsDir f r dryRun renameOk).name ≠ build_canonical_name r := by
  have hstep : renameStep fsDir f r dryRun renameOk =
      ensure_unique_path fsDir (canonicalPath f.dir r) := by
    rw [renameStep, if_pos hne, if_pos hex]
  obtain ⟨j, h1, h2, h3, h4⟩ := ensure_unique_path_spec fsDir _ hex
  refine ⟨⟨j, h1, hstep.trans h2, h3, h4⟩, ?_⟩
  rw [hstep, h2, ← canonicalPath_name f.dir r]
  exact withSuffixIdx_name_ne _ j

/-- Witness for C10: the canonical target already exists in the
source directory; the file is carried forward as `…_2`. -/
theorem canonical_rename_collision_witness :
    ((canonicalPath []
        ⟨"20240102".toList, "a".toList, "b".toList, "c".toList, "x".toList,
          "00001".toList, "png".toList⟩).name ≠
      (⟨[], "20240102_a_b_c_x_00001_00002".toList, ".png".toList⟩ : PPath).name) ∧
    ((∃ j, 2 ≤ j ∧
      renameStep
          [⟨[], "20240102_a_b_c_x_00001".toList, ".png".toList⟩,
            ⟨[], "20240102_a_b_c_x_00001_00002".toList, ".png".toList⟩]
          ⟨[], "20240102_a_b_c_x_00001_00002".toList, ".png".toList⟩
          ⟨"20240102".toList, "a".toList, "b".toList, "c".toList, "x".toList,
            "00001".toList, "png".toList⟩ false true =
        withSuffixIdx (canonicalPath []
          ⟨"20240102".toList, "a".toList, "b".toList, "c".toList, "x".toList,
            "00001".toList, "png".toList⟩) j ∧
      withSuffixIdx (canonicalPath []
          ⟨"20240102".toList, "a".toList, "b".toList, "c".toList, "x".toList,
            "00001".toList, "png".toList⟩) j ∉
        [⟨[], "20240102_a_b_c_x_00001".toList, ".png".toList⟩,
          ⟨[], "20240102_a_b_c_x_00001_00002".toList, ".png".toList⟩] ∧
      ∀ k, 2 ≤ k → k < j →
        withSuffixIdx (canonicalPath []
          ⟨"20240102".toList, "a".toList, "b".toList, "c".toList, "x".toList,
            "00001".toList, "png".toList⟩) k ∈
          [⟨[], "20240102_a_b_c_x_00001".toList, ".png".toList⟩,
            ⟨[], "20240102_a_b_c_x_00001_00002".toList, ".png".toList⟩]) ∧
    (renameStep
        [⟨[], "20240102_a_b_c_x_00001".toList, ".png".toList⟩,
          ⟨[], "20240102_a_b_c_x_00001_00002".toList, ".png".toList⟩]
        ⟨[], "20240102_a_b_c_x_00001_00002".toList, ".png".toList⟩
        ⟨"20240102".toList, "a".toList, "b".toList, "c".toList, "x".toList,
          "00001".toList, "png".toList⟩ false true).name ≠
      build_canonical_name
        ⟨"20240102".toList, "a".toList, "b".toList, "c".toList, "x".toList,
          "00001".toList, "png".toList⟩) :=
  ⟨by decide, canonical_rename_collision _ _ _ false true (by decide) (by decide)⟩

/-! ## C7: rename failure — the carried name (corrected) -/

/-- C7 counterexample: the rename to canonical fails (`renameOk =
false`), yet processing of the file continues under the canonical
target name, not under the file's original name as the claim states
(`f = new_path` is executed outside the `try`/`except` in the
source). -/
theorem rename_failure_not_original_name :
    parse_filename ("20240102_a_b_c_x_00001_00002.png".toList) =
      some ⟨"20240102".toList, "a".toList, "b".toList, "c".toList, "x".toList,
        "00001".toList, "png".toList⟩ ∧
    renameStep [⟨[], "20240102_a_b_c_x_00001_00002".toList, ".png".toList⟩]
        ⟨[], "20240102_a_b_c_x_00001_00002".toList, ".png".toList⟩
        ⟨"20240102".toList, "a".toList, "b".toList, "c".toList, "x".toList,
          "00001".toList, "png".toList⟩ false false =
      ⟨[], "20240102_a_b_c_x_00001".toList, ".png".toList⟩ ∧
    (⟨[], "20240102_a_b_c_x_00001".toList, ".png".toList⟩ : PPath).name ≠
      (⟨[], "20240102_a_b_c_x_00001_00002".toList, ".png".toList⟩ : PPath).name := by
  exact ⟨by decide, by decide, by decide⟩

/-- C7 amended: when the canonicalization rename of a file fails, the
batch is not aborted and processing of that file continues — but
using the intended rename target (the canonical name, possibly
suffix-uniquified on collision), exactly as when the rename succeeds,
not the file's original name. -/
theorem rename_failure_continues_with_target (fsDir : List PPath) (f : PPath)
    (r : FileNameRecord) (dryRun : Bool)
    (hne : (canonicalPath f.dir r).name ≠ f.name) :
    renameStep fsDir f r dryRun false = renameStep fsDir f r dryRun true ∧
    renameStep fsDir f r dryRun false =
      (if canonicalPath f.dir r ∈ fsDir then
        ensure_unique_path fsDir (canonicalPath f.dir r)
      else canonicalPath f.dir r) := by
  exact ⟨rfl, by rw [renameStep, if_pos hne]⟩

/-- Witness for the amended C7 at the counterexample's input. -/
theorem rename_failure_continues_with_target_witness :
    ((canonicalPath []
        ⟨"20240102".toList, "a".toList, "b".toList, "c".toList, "x".toList,
          "00001".toList, "png".toList⟩).name ≠
      (⟨[], "20240102_a_b_c_x_00001_00002".toList, ".png".toList⟩ : PPath).name) ∧
    (renameStep [⟨[], "20240102_a_b_c_x_00001_00002".toList, ".png".toList⟩]
        ⟨[], "20240102_a_b_c_x_00001_00002".toList, ".png".toList⟩
        ⟨"20240102".toList, "a".toList, "b".toList, "c".toList, "x".toList,
          "00001".toList, "png".toList⟩ false false =
      renameStep [⟨[], "20240102_a_b_c_x_00001_00002".toList, ".png".toList⟩]
        ⟨[], "20240102_a_b_c_x_00001_00002".toList, ".png".toList⟩
        ⟨"20240102".toList, "a".toList, "b".toList, "c".toList, "x".toList,
          "00001".toList, "png".toList⟩ false true ∧
    renameStep [⟨[], "20240102_a_b_c_x_00001_00002".toList, ".png".toList⟩]
        ⟨[], "20240102_a_b_c_x_00001_00002".toList, ".png".toList⟩
        ⟨"20240102".toList, "a".toList, "b".toList, "c".toList, "x".toList,
          "00001".toList, "png".toList⟩ false false =
      (if canonicalPath []
          ⟨"20240102".toList, "a".toList, "b".toList, "c".toList, "x".toList,
            "00001".toList, "png".toList⟩ ∈
          [⟨[], "20240102_a_b_c_x_00001_00002".toList, ".png".toList⟩] then
        ensure_unique_path
          [⟨[], "20240102_a_b_c_x_00001_00002".toList, ".png".toList⟩]
          (canonicalPath []
            ⟨"20240102".toList, "a".toList, "b".toList, "c".toList,
              "x".toList, "00001".toList, "png".toList⟩)
      else canonicalPath []
        ⟨"20240102".toList, "a".toList, "b".toList, "c".toList, "x".toList,
          "00001".toList, "png".toList⟩)) :=
  ⟨by decide, rename_failure_continues_with_target _ _ _ false (by decide)⟩

/-! ## C8: row-map tie-break (corrected: exact match first) -/

theorem foldl_rowMapInsert (rows : List (Str × Cats)) : ∀ acc,
    (∀ kv ∈ rows, pyStrip kv.1 ≠ [] → pyStrip kv.1 ∉ acc.map Prod.fst) →
    ((rows.map fun kv => pyStrip kv.1).Nodup) →
    rows.foldl rowMapInsert acc =
      acc ++ (rows.map (fun kv => (pyStrip kv.1, kv.2))).filter
        (fun e => e.1 ≠ []) := by
  induction rows with
  | nil => intro acc _ _; simp
  | cons kv rows ih =>
    intro acc hdisj hnodup
    rw [List.foldl_cons]
    by_cases hk : pyStrip kv.1 = []
    · have hstep : rowMapInsert acc kv = acc := by
        rw [rowMapInsert]; simp [hk]
      rw [hstep,
        ih acc (fun kv' h' => hdisj kv' (List.mem_cons_of_mem _ h'))
          hnodup.of_cons]
      simp [hk]
    · have hnotin : pyStrip kv.1 ∉ acc.map Prod.fst :=
        hdisj kv (List.mem_cons_self _ _) hk
      have hstep : rowMapInsert acc kv = acc ++ [(pyStrip kv.1, kv.2)] := by
        rw [rowMapInsert]; simp [hk, hnotin]
      rw [hstep, ih (acc ++ [(pyStrip kv.1, kv.2)]) ?disj hnodup.of_cons]
      · simp [hk, List.append_assoc]
      case disj =>
        intro kv' h' hne'
        rw [List.map_append, List.mem_append]
        push_neg
        refine ⟨hdisj kv' (List.mem_cons_of_mem _ h') hne', ?_⟩
        simp only [List.map_cons, List.map_nil, List.mem_singleton]
        intro he
        have hmem : pyStrip kv.1 ∈ rows.map (fun kv => pyStrip kv.1) := by
          rw [← he]; exact List.mem_map_of_mem _ h'
        exact (List.nodup_cons.1 hnodup).1 hmem

theorem buildRowMap_eq (rows : List (Str × Cats))
    (hnodup : (rows.map fun kv => pyStrip kv.1).Nodup) :
    buildRowMap rows =
      (rows.map (fun kv => (pyStrip kv.1, kv.2))).filter (fun e => e.1 ≠ []) := by
  rw [buildRowMap, foldl_rowMapInsert rows [] (by simp) hnodup]
  simp

theorem find?_filter_map {A B : Type} (l : List A) (g : A → B)
    (q p : B → Bool) :
    ((l.map g).filter q).find? p =
      (l.find? (fun a => q (g a) && p (g a))).map g := by
  induction l with
  | nil => simp
  | cons a l ih =>
    simp only [List.map_cons, List.filter_cons, List.find?_cons]
    cases hq : q (g a) <;> cases hp : p (g a) <;>
      simp [hq, hp, ih, List.find?_cons]

/-- C8 amended: with pairwise-distinct (stripped) row keys, a row
whose key equals the file's stem exactly supplies the categories even
when an earlier row's key is a prefix of the stem; only in the
absence of an exact match does the first row in iteration order
(= spreadsheet row order) whose key is a prefix of the stem supply
them.  Rows with empty keys are skipped. -/
theorem row_lookup_exact_then_earliest_match (rows : List (Str × Cats))
    (stem : Str)
    (hnodup : (rows.map fun kv => pyStrip kv.1).Nodup) :
    lookupCats (buildRowMap rows) stem =
      match rows.find? (fun kv =>
          decide (pyStrip kv.1 ≠ []) && decide (pyStrip kv.1 = stem)) with
      | some kv => some kv.2
      | none =>
        (rows.find? (fun kv => decide (pyStrip kv.1 ≠ []) &&
          (pyStrip kv.1).isPrefixOf stem)).map (fun kv => kv.2) := by
  rw [lookupCats, buildRowMap_eq rows hnodup]
  by_cases hF : (rows.map (fun kv => (pyStrip kv.1, kv.2))).filter
      (fun e => e.1 ≠ []) = []
  · rw [if_pos hF]
    have hkeys : ∀ kv ∈ rows, pyStrip kv.1 = [] := by
      intro kv hkv
      by_contra hne
      have hmem : (pyStrip kv.1, kv.2) ∈
          (rows.map (fun kv => (pyStrip kv.1, kv.2))).filter
            (fun e => e.1 ≠ []) :=
        List.mem_filter.2 ⟨List.mem_map_of_mem _ hkv, by simp [hne]⟩
      rw [hF] at hmem
      exact absurd hmem (List.not_mem_nil _)
    clear hF
    have h1 : rows.find? (fun kv =>
        decide (pyStrip kv.1 ≠ []) && decide (pyStrip kv.1 = stem)) = none :=
      List.find?_eq_none.2 (fun kv hkv => by simp [hkeys kv hkv])
    have h2 : rows.find? (fun kv => decide (pyStrip kv.1 ≠ []) &&
        (pyStrip kv.1).isPrefixOf stem) = none :=
      List.find?_eq_none.2 (fun kv hkv => by simp [hkeys kv hkv])
    rw [h1, h2]
    rfl
  · rw [if_neg hF,
      find?_filter_map rows (fun kv => (pyStrip kv.1, kv.2))
        (fun e => decide (e.1 ≠ [])) (fun e => decide (e.1 = stem)),
      find?_filter_map rows (fun kv => (pyStrip kv.1, kv.2))
        (fun e => decide (e.1 ≠ [])) (fun e => e.1.isPrefixOf stem)]
    cases hx : rows.find? (fun kv =>
        decide (pyStrip kv.1 ≠ []) && decide (pyStrip kv.1 = stem)) with
    | some kv => simp [hx]
    | none =>
      simp only [hx, Option.map_map]
      rfl

/-- C8 counterexample: the stem `20240102_x` is an exact match for
the *second* row's key while the *first* row's key `2024` is a prefix
of it; the categories come from the second row, not from the row
whose key is found first in iteration order. -/
theorem row_lookup_not_first_in_order :
    lookupCats (buildRowMap
        [("2024".toList, ⟨"A".toList, [], [], [], [], [], []⟩),
         ("20240102_x".toList, ⟨"B".toList, [], [], [], [], [], []⟩)])
        "20240102_x".toList =
      some ⟨"B".toList, [], [], [], [], [], []⟩ ∧
    ([(("2024".toList : Str), (⟨"A".toList, [], [], [], [], [], []⟩ : Cats)),
      ("20240102_x".toList, ⟨"B".toList, [], [], [], [], [], []⟩)].find?
        (fun kv => (pyStrip kv.1).isPrefixOf "20240102_x".toList)).map
        (fun kv => kv.2) =
      some ⟨"A".toList, [], [], [], [], [], []⟩ ∧
    (⟨"A".toList, [], [], [], [], [], []⟩ : Cats) ≠
      ⟨"B".toList, [], [], [], [], [], []⟩ :=
  ⟨by decide, by decide, by decide⟩

/-- Witness for the amended C8 on concrete rows with distinct keys. -/
theorem row_lookup_exact_then_earliest_match_witness :
    (([(("2024".toList : Str), (⟨"A".toList, [], [], [], [], [], []⟩ : Cats)),
        ("20240102_x".toList, ⟨"B".toList, [], [], [], [], [], []⟩)].map
        fun kv => pyStrip kv.1).Nodup) ∧
    lookupCats (buildRowMap
        [("2024".toList, ⟨"A".toList, [], [], [], [], [], []⟩),
         ("20240102_x".toList, ⟨"B".toList, [], [], [], [], [], []⟩)])
        "20240102_99".toList =
      some ⟨"A".toList, [], [], [], [], [], []⟩ :=
  ⟨by decide,
    (row_lookup_exact_then_earliest_match _ _ (by decide)).trans (by decide)⟩

/-! ## Character facts -/

theorem char_le_iff_toNat {a b : Char} : a ≤ b ↔ a.toNat ≤ b.toNat := by
  rw [Char.le_def, UInt32.le_def, BitVec.le_def]
  rfl

theorem char_toNat_ofNat {k : Nat} (h : k < 55296) :
    (Char.ofNat k).toNat = k := by
  rw [Char.ofNat, dif_pos (Or.inl h)]
  rfl

theorem char_toNat_inj {a b : Char} (h : a.toNat = b.toNat) : a = b := by
  apply Char.ext
  apply UInt32.eq_of_toBitVec_eq
  apply BitVec.eq_of_toNat_eq
  exact h

theorem pyLower_fixed_char {c x : Char} (hx : x.toNat < 65)
    (h : pyLower c = x) : c = x := by
  rw [pyLower] at h
  split at h
  · rename_i hAZ
    have h65 : 'A'.toNat ≤ c.toNat := char_le_iff_toNat.1 hAZ.1
    have h90 : c.toNat ≤ 'Z'.toNat := char_le_iff_toNat.1 hAZ.2
    have hA : 'A'.toNat = 65 := rfl
    have hZ : 'Z'.toNat = 90 := rfl
    have := congrArg Char.toNat h
    rw [char_toNat_ofNat (by omega)] at this
    omega
  · exact h

theorem pyLower_eq_dot {c : Char} (h : pyLower c = '.') : c = '.' :=
  pyLower_fixed_char (by decide) h

theorem pyLower_eq_nl {c : Char} (h : pyLower c = '\n') : c = '\n' :=
  pyLower_fixed_char (by decide) h

theorem isPyDigit_not_space {c : Char} (h : isPyDigit c = true) :
    isPySpace c = false := by
  have h48 : '0'.toNat ≤ c.toNat := by
    rw [isPyDigit, Bool.and_eq_true] at h
    exact char_le_iff_toNat.1 (by simpa using h.1)
  have h57 : c.toNat ≤ '9'.toNat := by
    rw [isPyDigit, Bool.and_eq_true] at h
    exact char_le_iff_toNat.1 (by simpa using h.2)
  by_contra hcon
  have htrue : isPySpace c = true := by
    cases hx : isPySpace c
    · exact absurd hx hcon
    · rfl
  simp only [isPySpace, pySpaceChars, List.contains_cons, List.contains_nil,
    Bool.or_eq_true, beq_iff_eq] at htrue
  rcases htrue with rfl | rfl | rfl | rfl | rfl | rfl | rfl | rfl | rfl | rfl |
    rfl | rfl | rfl | rfl | rfl | rfl | rfl | rfl | rfl | rfl | rfl | rfl |
    rfl | rfl | rfl | rfl | rfl | rfl | rfl | h29 <;>
    first
      | (revert h48 h57; decide)
      | exact absurd h29 (by decide)

theorem isPyDigit_ne_underscore {c : Char} (h : isPyDigit c = true) :
    c ≠ '_' := by
  rintro rfl
  exact absurd h (by decide)

theorem isPyDigit_ne_nl {c : Char} (h : isPyDigit c = true) : c ≠ '\n' := by
  rintro rfl
  exact absurd h (by decide)

/-! ## Unfolding equations for `sub1` and `sub2` -/

theorem sub1F_congr : ∀ (f : Nat) (s : Str) (g : Nat), s.length ≤ f →
    s.length ≤ g → sub1F f s = sub1F g s := by
  intro f
  induction f with
  | zero =>
    intro s g hf _
    have hs : s = [] := List.length_eq_zero.1 (by omega)
    subst hs
    cases g <;> rfl
  | succ f ih =>
    intro s g hf hg
    cases s with
    | nil => cases g <;> rfl
    | cons c rest =>
      cases g with
      | zero => simp at hg
      | succ g =>
        have hlen : rest.length ≤ f := by simp at hf; omega
        have hleng : rest.length ≤ g := by simp at hg; omega
        have hdw : (rest.dropWhile isPySpace).length ≤ rest.length :=
          (List.dropWhile_suffix _).length_le
        have htl : ((rest.dropWhile isPySpace).tail.dropWhile isPySpace).length ≤
            rest.length := by
          have h1 : ((rest.dropWhile isPySpace).tail.dropWhile isPySpace).length ≤
              (rest.dropWhile isPySpace).tail.length :=
            (List.dropWhile_suffix _).length_le
          have h2 : (rest.dropWhile isPySpace).tail.length ≤
              (rest.dropWhile isPySpace).length := by
            cases rest.dropWhile isPySpace <;> simp
          omega
        simp only [sub1F]
        by_cases hc : c = '_'
        · rw [if_pos hc, if_pos hc, ih _ g (by omega) (by omega)]
        · rw [if_neg hc, if_neg hc]
          by_cases hsp : isPySpace c = true
          · rw [if_pos hsp, if_pos hsp]
            by_cases hh : (rest.dropWhile isPySpace).head? = some '_'
            · rw [if_pos hh, if_pos hh, ih _ g (by omega) (by omega)]
            · rw [if_neg hh, if_neg hh, ih rest g hlen hleng]
          · rw [if_neg hsp, if_neg hsp, ih rest g hlen hleng]

theorem sub1_underscore (rest : Str) :
    sub1 ('_' :: rest) = '_' :: sub1 (rest.dropWhile isPySpace) := by
  simp only [sub1, List.length_cons, sub1F]
  rw [if_pos (by trivial)]
  congr 1
  exact sub1F_congr rest.length _ _ (List.dropWhile_suffix _).length_le
    (Nat.le_refl _)

theorem sub1_space_underscore {c : Char} (rest r2 : Str)
    (hc : isPySpace c = true)
    (h : rest.dropWhile isPySpace = '_' :: r2) :
    sub1 (c :: rest) = '_' :: sub1 (r2.dropWhile isPySpace) := by
  have hcu : c ≠ '_' := fun he => by subst he; exact absurd hc (by decide)
  have hr2 : r2.length < rest.length := by
    have h1 := congrArg List.length h
    have h2 : (rest.dropWhile isPySpace).length ≤ rest.length :=
      (List.dropWhile_suffix _).length_le
    simp at h1
    omega
  simp only [sub1, List.length_cons, sub1F]
  rw [if_neg hcu, if_pos hc, if_pos (by rw [h]; rfl), h, List.tail_cons]
  congr 1
  have hdw2 : (r2.dropWhile isPySpace).length ≤ r2.length :=
    (List.dropWhile_suffix _).length_le
  exact sub1F_congr rest.length _ _ (by omega) (Nat.le_refl _)

theorem sub1_space_other {c : Char} (rest : Str) (hc : isPySpace c = true)
    (h : (rest.dropWhile isPySpace).head? ≠ some '_') :
    sub1 (c :: rest) = c :: sub1 rest := by
  have hcu : c ≠ '_' := fun he => by subst he; exact absurd hc (by decide)
  simp only [sub1, List.length_cons, sub1F]
  rw [if_neg hcu, if_pos hc, if_neg h]

theorem sub1_other {c : Char} (rest : Str) (hcu : c ≠ '_')
    (hc : isPySpace c = false) :
    sub1 (c :: rest) = c :: sub1 rest := by
  simp only [sub1, List.length_cons, sub1F]
  rw [if_neg hcu, if_neg (by simp [hc])]

theorem sub2F_congr : ∀ (f : Nat) (s : Str) (g : Nat), s.length ≤ f →
    s.length ≤ g → sub2F f s = sub2F g s := by
  intro f
  induction f with
  | zero =>
    intro s g hf _
    have hs : s = [] := List.length_eq_zero.1 (by omega)
    subst hs
    cases g <;> rfl
  | succ f ih =>
    intro s g hf hg
    cases s with
    | nil => cases g <;> rfl
    | cons c rest =>
      cases g with
      | zero => simp at hg
      | succ g =>
        have hlen : rest.length ≤ f := by simp at hf; omega
        have hleng : rest.length ≤ g := by simp at hg; omega
        have hdw : (rest.dropWhile isPySpace).length ≤ rest.length :=
          (List.dropWhile_suffix _).length_le
        have htl : (rest.dropWhile isPySpace).tail.length ≤ rest.length := by
          have h2 : (rest.dropWhile isPySpace).tail.length ≤
              (rest.dropWhile isPySpace).length := by
            cases rest.dropWhile isPySpace <;> simp
          omega
        simp only [sub2F]
        by_cases hsp : isPySpace c = true
        · rw [if_pos hsp, if_pos hsp]
          by_cases hh : (rest.dropWhile isPySpace).head? = some '.'
          · rw [if_pos hh, if_pos hh, ih _ g (by omega) (by omega)]
          · rw [if_neg hh, if_neg hh, ih rest g hlen hleng]
        · rw [if_neg hsp, if_neg hsp, ih rest g hlen hleng]

theorem sub2_space_dot {c : Char} (rest r2 : Str) (hc : isPySpace c = true)
    (h : rest.dropWhile isPySpace = '.' :: r2) :
    sub2 (c :: rest) = '.' :: sub2 r2 := by
  have hr2 : r2.length < rest.length := by
    have h1 := congrArg List.length h
    have h2 : (rest.dropWhile isPySpace).length ≤ rest.length :=
      (List.dropWhile_suffix _).length_le
    simp at h1
    omega
  simp only [sub2, List.length_cons, sub2F]
  rw [if_pos hc, if_pos (by rw [h]; rfl), h, List.tail_cons]
  congr 1
  exact sub2F_congr rest.length _ _ (by omega) (Nat.le_refl _)

theorem sub2_space_other {c : Char} (rest : Str) (hc : isPySpace c = true)
    (h : (rest.dropWhile isPySpace).head? ≠ some '.') :
    sub2 (c :: rest) = c :: sub2 rest := by
  simp only [sub2, List.length_cons, sub2F]
  rw [if_pos hc, if_neg h]

theorem sub2_nonspace {c : Char} (rest : Str) (hc : isPySpace c = false) :
    sub2 (c :: rest) = c :: sub2 rest := by
  simp only [sub2, List.length_cons, sub2F]
  rw [if_neg (by simp [hc])]

/-! ## Adjacency invariants of the normalizer -/

/-- No whitespace adjacent to an underscore (the invariant established
by `re.sub(r"\s*_\s*", "_", ·)`). -/
def GoodU (a b : Char) : Prop :=
  ¬(isPySpace a = true ∧ b = '_') ∧ ¬(a = '_' ∧ isPySpace b = true)

/-- No whitespace immediately before a dot (the invariant established
by `re.sub(r"\s+\.", ".", ·)`). -/
def GoodD (a b : Char) : Prop := ¬(isPySpace a = true ∧ b = '.')

instance : ∀ a b, Decidable (GoodU a b) := fun a b =>
  inferInstanceAs (Decidable (¬(isPySpace a = true ∧ b = '_') ∧
    ¬(a = '_' ∧ isPySpace b = true)))

instance : ∀ a b, Decidable (GoodD a b) := fun a b =>
  inferInstanceAs (Decidable (¬(isPySpace a = true ∧ b = '.')))

theorem head?_dropWhile_not (p : Char → Bool) (l : Str) :
    ∀ x, (l.dropWhile p).head? = some x → p x = false := by
  induction l with
  | nil => intro x hx; simp at hx
  | cons c t ih =>
    intro x hx
    by_cases hc : p c = true
    · rw [List.dropWhile_cons_of_pos hc] at hx
      exact ih x hx
    · rw [List.dropWhile_cons_of_neg hc] at hx
      simp at hx
      subst hx
      exact Bool.eq_false_iff.2 hc

theorem dropWhile_eq_self_of_head (p : Char → Bool) (l : Str)
    (h : ∀ x, l.head? = some x → p x = false) : l.dropWhile p = l := by
  cases l with
  | nil => rfl
  | cons c t =>
    exact List.dropWhile_cons_of_neg (by simp [h c rfl])

theorem sub1_head_space (r : Str) (x : Char) (h : (sub1 r).head? = some x)
    (hsp : isPySpace x = true) : r.head? = some x := by
  cases r with
  | nil => simp [sub1, sub1F] at h
  | cons c t =>
    by_cases hc : c = '_'
    · subst hc
      rw [sub1_underscore] at h
      simp at h
      subst h
      exact absurd hsp (by decide)
    · by_cases hcs : isPySpace c = true
      · cases hmatch : t.dropWhile isPySpace with
        | nil =>
          rw [sub1_space_other t hcs (by rw [hmatch]; simp)] at h
          simp at h
          simp [h]
        | cons y r2 =>
          by_cases hy : y = '_'
          · subst hy
            rw [sub1_space_underscore t r2 hcs hmatch] at h
            simp at h
            subst h
            exact absurd hsp (by decide)
          · rw [sub1_space_other t hcs (by rw [hmatch]; simp [hy])] at h
            simp at h
            simp [h]
      · rw [sub1_other t hc (Bool.eq_false_iff.2 hcs)] at h
        simp at h
        simp [h]

theorem sub1_head_underscore (r : Str) (h : (sub1 r).head? = some '_') :
    (r.dropWhile isPySpace).head? = some '_' := by
  cases r with
  | nil => simp [sub1, sub1F] at h
  | cons c t =>
    by_cases hc : c = '_'
    · subst hc
      rw [List.dropWhile_cons_of_neg (by decide)]
      rfl
    · by_cases hcs : isPySpace c = true
      · cases hmatch : t.dropWhile isPySpace with
        | nil =>
          rw [sub1_space_other t hcs (by rw [hmatch]; simp)] at h
          simp at h
          exact absurd h hc
        | cons y r2 =>
          by_cases hy : y = '_'
          · subst hy
            rw [List.dropWhile_cons_of_pos hcs, hmatch]
            rfl
          · rw [sub1_space_other t hcs (by rw [hmatch]; simp [hy])] at h
            simp at h
            exact absurd h hc
      · rw [sub1_other t hc (Bool.eq_false_iff.2 hcs)] at h
        simp at h
        exact absurd h hc

theorem sub2_head (r : Str) (x : Char) (h : (sub2 r).head? = some x) :
    r.head? = some x ∨ x = '.' := by
  cases r with
  | nil => simp [sub2, sub2F] at h
  | cons c t =>
    by_cases hcs : isPySpace c = true
    · cases hmatch : t.dropWhile isPySpace with
      | nil =>
        rw [sub2_space_other t hcs (by rw [hmatch]; simp)] at h
        simp at h
        exact Or.inl (by simp [h])
      | cons y r2 =>
        by_cases hy : y = '.'
        · subst hy
          rw [sub2_space_dot t r2 hcs hmatch] at h
          simp at h
          exact Or.inr h.symm
        · rw [sub2_space_other t hcs (by rw [hmatch]; simp [hy])] at h
          simp at h
          exact Or.inl (by simp [h])
    · rw [sub2_nonspace t (Bool.eq_false_iff.2 hcs)] at h
      simp at h
      exact Or.inl (by simp [h])

theorem sub2_head_dot (r : Str) (h : (sub2 r).head? = some '.') :
    (r.dropWhile isPySpace).head? = some '.' := by
  cases r with
  | nil => simp [sub2, sub2F] at h
  | cons c t =>
    by_cases hcs : isPySpace c = true
    · cases hmatch : t.dropWhile isPySpace with
      | nil =>
        rw [sub2_space_other t hcs (by rw [hmatch]; simp)] at h
        simp at h
        rw [h] at hcs
        exact absurd hcs (by decide)
      | cons y r2 =>
        by_cases hy : y = '.'
        · subst hy
          rw [List.dropWhile_cons_of_pos hcs, hmatch]
          rfl
        · rw [sub2_space_other t hcs (by rw [hmatch]; simp [hy])] at h
          simp at h
          rw [h] at hcs
          exact absurd hcs (by decide)
    · rw [sub2_nonspace t (Bool.eq_false_iff.2 hcs)] at h
      simp at h
      subst h
      rw [List.dropWhile_cons_of_neg (by simp [hcs])]
      rfl

theorem sub1_chain (l : Str) : List.Chain' GoodU (sub1 l) := by
  suffices h : ∀ n (l : Str), l.length ≤ n → List.Chain' GoodU (sub1 l) from
    h l.length l (Nat.le_refl _)
  intro n
  induction n with
  | zero =>
    intro l hl
    have : l = [] := List.length_eq_zero.1 (by omega)
    subst this
    exact List.chain'_nil
  | succ n ih =>
    intro l hl
    cases l with
    | nil => exact List.chain'_nil
    | cons c rest =>
      have hrest : rest.length ≤ n := by simp at hl; omega
      have hdw : (rest.dropWhile isPySpace).length ≤ rest.length :=
        (List.dropWhile_suffix _).length_le
      by_cases hc : c = '_'
      · subst hc
        rw [sub1_underscore]
        rw [List.chain'_cons']
        refine ⟨?_, ih _ (by omega)⟩
        intro y hy
        have hy' := Option.mem_def.1 hy
        constructor
        · rintro ⟨hsp, _⟩
          exact absurd hsp (by decide)
        · rintro ⟨_, hsp⟩
          have := head?_dropWhile_not isPySpace rest y
            (sub1_head_space _ y hy' hsp)
          simp [this] at hsp
      · by_cases hcs : isPySpace c = true
        · cases hmatch : rest.dropWhile isPySpace with
          | nil =>
            rw [sub1_space_other rest hcs (by rw [hmatch]; simp)]
            rw [List.chain'_cons']
            refine ⟨?_, ih rest hrest⟩
            intro y hy
            have hy' := Option.mem_def.1 hy
            constructor
            · rintro ⟨_, hy_⟩
              subst hy_
              have := sub1_head_underscore rest hy'
              rw [hmatch] at this
              simp at this
            · rintro ⟨he, _⟩
              exact hc he
          | cons z r2 =>
            by_cases hz : z = '_'
            · subst hz
              rw [sub1_space_underscore rest r2 hcs hmatch]
              have hr2 : r2.length < rest.length := by
                have h1 := congrArg List.length hmatch
                simp at h1
                omega
              have hdw2 : (r2.dropWhile isPySpace).length ≤ r2.length :=
                (List.dropWhile_suffix _).length_le
              rw [List.chain'_cons']
              refine ⟨?_, ih _ (by omega)⟩
              intro y hy
              have hy' := Option.mem_def.1 hy
              constructor
              · rintro ⟨hsp, _⟩
                exact absurd hsp (by decide)
              · rintro ⟨_, hsp⟩
                have := head?_dropWhile_not isPySpace r2 y
                  (sub1_head_space _ y hy' hsp)
                simp [this] at hsp
            · rw [sub1_space_other rest hcs (by rw [hmatch]; simp [hz])]
              rw [List.chain'_cons']
              refine ⟨?_, ih rest hrest⟩
              intro y hy
              have hy' := Option.mem_def.1 hy
              constructor
              · rintro ⟨_, hy_⟩
                subst hy_
                have := sub1_head_underscore rest hy'
                rw [hmatch] at this
                simp at this
                exact hz this
              · rintro ⟨he, _⟩
                exact hc he
        · rw [sub1_other rest hc (Bool.eq_false_iff.2 hcs)]
          rw [List.chain'_cons']
          refine ⟨?_, ih rest hrest⟩
          intro y _
          exact ⟨fun hcon => hcs hcon.1, fun hcon => hc hcon.1⟩

theorem chainU_space_dropWhile (l : Str) : ∀ c, List.Chain' GoodU (c :: l) →
    isPySpace c = true → (l.dropWhile isPySpace).head? ≠ some '_' := by
  induction l with
  | nil => intro c _ _; simp
  | cons d t ih =>
    intro c hchain hsp
    have hpair : GoodU c d := by
      rw [List.chain'_cons] at hchain
      exact hchain.1
    have htail : List.Chain' GoodU (d :: t) := by
      rw [List.chain'_cons] at hchain
      exact hchain.2
    by_cases hd : isPySpace d = true
    · rw [List.dropWhile_cons_of_pos hd]
      exact ih d htail hd
    · rw [List.dropWhile_cons_of_neg hd]
      intro hcon
      simp at hcon
      exact hpair.1 ⟨hsp, hcon⟩

theorem sub1_fix (l : Str) (h : List.Chain' GoodU l) : sub1 l = l := by
  suffices hs : ∀ n (l : Str), l.length ≤ n → List.Chain' GoodU l →
      sub1 l = l from hs l.length l (Nat.le_refl _) h
  intro n
  induction n with
  | zero =>
    intro l hl _
    have : l = [] := List.length_eq_zero.1 (by omega)
    subst this
    rfl
  | succ n ih =>
    intro l hl hchain
    cases l with
    | nil => rfl
    | cons c rest =>
      have hrest : rest.length ≤ n := by simp at hl; omega
      have htail : List.Chain' GoodU rest := hchain.tail
      by_cases hc : c = '_'
      · subst hc
        rw [sub1_underscore]
        have hdw : rest.dropWhile isPySpace = rest := by
          apply dropWhile_eq_self_of_head
          intro x hx
          have hpair := (List.chain'_cons'.1 hchain).1 x (Option.mem_def.2 hx)
          by_contra hcon
          exact hpair.2 ⟨rfl, by simpa using hcon⟩
        rw [hdw, ih rest hrest htail]
      · by_cases hcs : isPySpace c = true
        · rw [sub1_space_other rest hcs
            (chainU_space_dropWhile rest c hchain hcs),
            ih rest hrest htail]
        · rw [sub1_other rest hc (Bool.eq_false_iff.2 hcs),
            ih rest hrest htail]

theorem sub2_preserves_goodU (l : Str) (h : List.Chain' GoodU l) :
    List.Chain' GoodU (sub2 l) := by
  suffices hs : ∀ n (l : Str), l.length ≤ n → List.Chain' GoodU l →
      List.Chain' GoodU (sub2 l) from hs l.length l (Nat.le_refl _) h
  intro n
  induction n with
  | zero =>
    intro l hl _
    have : l = [] := List.length_eq_zero.1 (by omega)
    subst this
    exact List.chain'_nil
  | succ n ih =>
    intro l hl hchain
    cases l with
    | nil => exact List.chain'_nil
    | cons c rest =>
      have hrest : rest.length ≤ n := by simp at hl; omega
      have htail : List.Chain' GoodU rest := hchain.tail
      by_cases hcs : isPySpace c = true
      · cases hmatch : rest.dropWhile isPySpace with
        | nil =>
          rw [sub2_space_other rest hcs (by rw [hmatch]; simp)]
          rw [List.chain'_cons']
          refine ⟨?_, ih rest hrest htail⟩
          intro y hy
          rcases sub2_head rest y (Option.mem_def.1 hy) with hhead | hdot
          · exact (List.chain'_cons'.1 hchain).1 y (Option.mem_def.2 hhead)
          · subst hdot
            exact ⟨fun hcon => by simp at hcon, fun hcon => by
              exact absurd hcon.2 (by decide)⟩
        | cons z r2 =>
          by_cases hz : z = '.'
          · subst hz
            rw [sub2_space_dot rest r2 hcs hmatch]
            have hr2A : ('.' :: r2) <:+ rest := by
              rw [← hmatch]; exact List.dropWhile_suffix _
            have hr2 : r2.length < rest.length := by
              have := hr2A.length_le
              simp at this
              omega
            have hchainr2 : List.Chain' GoodU r2 := by
              refine hchain.suffix ?_
              exact ((List.suffix_cons '.' r2).trans hr2A).trans
                (List.suffix_cons c rest)
            rw [List.chain'_cons']
            refine ⟨?_, ih r2 (by omega) hchainr2⟩
            intro y _
            exact ⟨fun hcon => by exact absurd hcon.1 (by decide),
              fun hcon => by simp at hcon⟩
          · rw [sub2_space_other rest hcs (by rw [hmatch]; simp [hz])]
            rw [List.chain'_cons']
            refine ⟨?_, ih rest hrest htail⟩
            intro y hy
            rcases sub2_head rest y (Option.mem_def.1 hy) with hhead | hdot
            · exact (List.chain'_cons'.1 hchain).1 y (Option.mem_def.2 hhead)
            · subst hdot
              exact ⟨fun hcon => by simp at hcon, fun hcon => by
                exact absurd hcon.2 (by decide)⟩
      · rw [sub2_nonspace rest (Bool.eq_false_iff.2 hcs)]
        rw [List.chain'_cons']
        refine ⟨?_, ih rest hrest htail⟩
        intro y hy
        rcases sub2_head rest y (Option.mem_def.1 hy) with hhead | hdot
        · exact (List.chain'_cons'.1 hchain).1 y (Option.mem_def.2 hhead)
        · subst hdot
          exact ⟨fun hcon => hcs hcon.1, fun hcon => by
            exact absurd hcon.2 (by decide)⟩

theorem sub2_chainD (l : Str) : List.Chain' GoodD (sub2 l) := by
  suffices hs : ∀ n (l : Str), l.length ≤ n → List.Chain' GoodD (sub2 l) from
    hs l.length l (Nat.le_refl _)
  intro n
  induction n with
  | zero =>
    intro l hl
    have : l = [] := List.length_eq_zero.1 (by omega)
    subst this
    exact List.chain'_nil
  | succ n ih =>
    intro l hl
    cases l with
    | nil => exact List.chain'_nil
    | cons c rest =>
      have hrest : rest.length ≤ n := by simp at hl; omega
      by_cases hcs : isPySpace c = true
      · cases hmatch : rest.dropWhile isPySpace with
        | nil =>
          rw [sub2_space_other rest hcs (by rw [hmatch]; simp)]
          rw [List.chain'_cons']
          refine ⟨?_, ih rest hrest⟩
          intro y hy
          rintro ⟨_, hdot⟩
          subst hdot
          have := sub2_head_dot rest (Option.mem_def.1 hy)
          rw [hmatch] at this
          simp at this
        | cons z r2 =>
          by_cases hz : z = '.'
          · subst hz
            rw [sub2_space_dot rest r2 hcs hmatch]
            have hr2 : r2.length < rest.length := by
              have h1 := congrArg List.length hmatch
              have h2 : (rest.dropWhile isPySpace).length ≤ rest.length :=
                (List.dropWhile_suffix _).length_le
              simp at h1
              omega
            rw [List.chain'_cons']
            refine ⟨?_, ih r2 (by omega)⟩
            intro y _
            rintro ⟨hsp, _⟩
            exact absurd hsp (by decide)
          · rw [sub2_space_other rest hcs (by rw [hmatch]; simp [hz])]
            rw [List.chain'_cons']
            refine ⟨?_, ih rest hrest⟩
            intro y hy
            rintro ⟨_, hdot⟩
            subst hdot
            have := sub2_head_dot rest (Option.mem_def.1 hy)
            rw [hmatch] at this
            simp at this
            exact hz this
      · rw [sub2_nonspace rest (Bool.eq_false_iff.2 hcs)]
        rw [List.chain'_cons']
        refine ⟨?_, ih rest hrest⟩
        intro y _
        rintro ⟨hsp, _⟩
        exact absurd hsp (Bool.eq_false_iff.2 hcs ▸ by simp [hcs])

theorem chainD_space_dropWhile (l : Str) : ∀ c, List.Chain' GoodD (c :: l) →
    isPySpace c = true → (l.dropWhile isPySpace).head? ≠ some '.' := by
  induction l with
  | nil => intro c _ _; simp
  | cons d t ih =>
    intro c hchain hsp
    have hpair : GoodD c d := by
      rw [List.chain'_cons] at hchain
      exact hchain.1
    have htail : List.Chain' GoodD (d :: t) := by
      rw [List.chain'_cons] at hchain
      exact hchain.2
    by_cases hd : isPySpace d = true
    · rw [List.dropWhile_cons_of_pos hd]
      exact ih d htail hd
    · rw [List.dropWhile_cons_of_neg hd]
      intro hcon
      simp at hcon
      exact hpair ⟨hsp, hcon⟩

theorem sub2_fix (l : Str) (h : List.Chain' GoodD l) : sub2 l = l := by
  suffices hs : ∀ n (l : Str), l.length ≤ n → List.Chain' GoodD l →
      sub2 l = l from hs l.length l (Nat.le_refl _) h
  intro n
  induction n with
  | zero =>
    intro l hl _
    have : l = [] := List.length_eq_zero.1 (by omega)
    subst this
    rfl
  | succ n ih =>
    intro l hl hchain
    cases l with
    | nil => rfl
    | cons c rest =>
      have hrest : rest.length ≤ n := by simp at hl; omega
      have htail : List.Chain' GoodD rest := hchain.tail
      by_cases hcs : isPySpace c = true
      · rw [sub2_space_other rest hcs
          (chainD_space_dropWhile rest c hchain hcs), ih rest hrest htail]
      · rw [sub2_nonspace rest (Bool.eq_false_iff.2 hcs), ih rest hrest htail]

theorem mem_sub1 (l : Str) (x : Char) (h : x ∈ sub1 l) : x ∈ l ∨ x = '_' := by
  suffices hs : ∀ n (l : Str), l.length ≤ n → ∀ x, x ∈ sub1 l →
      x ∈ l ∨ x = '_' from hs l.length l (Nat.le_refl _) x h
  intro n
  induction n with
  | zero =>
    intro l hl x hx
    have : l = [] := List.length_eq_zero.1 (by omega)
    subst this
    simp [sub1, sub1F] at hx
  | succ n ih =>
    intro l hl x hx
    cases l with
    | nil => simp [sub1, sub1F] at hx
    | cons c rest =>
      have hrest : rest.length ≤ n := by simp at hl; omega
      have hdw : (rest.dropWhile isPySpace).length ≤ rest.length :=
        (List.dropWhile_suffix _).length_le
      by_cases hc : c = '_'
      · subst hc
        rw [sub1_underscore] at hx
        rcases List.mem_cons.1 hx with rfl | hx'
        · exact Or.inr rfl
        · rcases ih _ (by omega) x hx' with hmem | hu
          · exact Or.inl (List.mem_cons_of_mem _
              ((List.dropWhile_suffix _).subset hmem))
          · exact Or.inr hu
      · by_cases hcs : isPySpace c = true
        · cases hmatch : rest.dropWhile isPySpace with
          | nil =>
            rw [sub1_space_other rest hcs (by rw [hmatch]; simp)] at hx
            rcases List.mem_cons.1 hx with rfl | hx'
            · exact Or.inl (List.mem_cons_self _ _)
            · rcases ih rest hrest x hx' with hmem | hu
              · exact Or.inl (List.mem_cons_of_mem _ hmem)
              · exact Or.inr hu
          | cons z r2 =>
            by_cases hz : z = '_'
            · subst hz
              rw [sub1_space_underscore rest r2 hcs hmatch] at hx
              have hr2 : r2.length < rest.length := by
                have h1 := congrArg List.length hmatch
                simp at h1
                omega
              have hr2sub : r2 ⊆ rest := by
                intro a ha
                exact (List.dropWhile_suffix isPySpace).subset
                  (hmatch ▸ List.mem_cons_of_mem _ ha)
              rcases List.mem_cons.1 hx with rfl | hx'
              · exact Or.inr rfl
              · have hdw2 : (r2.dropWhile isPySpace).length ≤ r2.length :=
                  (List.dropWhile_suffix _).length_le
                rcases ih _ (by omega) x hx' with hmem | hu
                · exact Or.inl (List.mem_cons_of_mem _
                    (hr2sub ((List.dropWhile_suffix _).subset hmem)))
                · exact Or.inr hu
            · rw [sub1_space_other rest hcs (by rw [hmatch]; simp [hz])] at hx
              rcases List.mem_cons.1 hx with rfl | hx'
              · exact Or.inl (List.mem_cons_self _ _)
              · rcases ih rest hrest x hx' with hmem | hu
                · exact Or.inl (List.mem_cons_of_mem _ hmem)
                · exact Or.inr hu
        · rw [sub1_other rest hc (Bool.eq_false_iff.2 hcs)] at hx
          rcases List.mem_cons.1 hx with rfl | hx'
          · exact Or.inl (List.mem_cons_self _ _)
          · rcases ih rest hrest x hx' with hmem | hu
            · exact Or.inl (List.mem_cons_of_mem _ hmem)
            · exact Or.inr hu

theorem mem_sub2 (l : Str) (x : Char) (h : x ∈ sub2 l) : x ∈ l ∨ x = '.' := by
  suffices hs : ∀ n (l : Str), l.length ≤ n → ∀ x, x ∈ sub2 l →
      x ∈ l ∨ x = '.' from hs l.length l (Nat.le_refl _) x h
  intro n
  induction n with
  | zero =>
    intro l hl x hx
    have : l = [] := List.length_eq_zero.1 (by omega)
    subst this
    simp [sub2, sub2F] at hx
  | succ n ih =>
    intro l hl x hx
    cases l with
    | nil => simp [sub2, sub2F] at hx
    | cons c rest =>
      have hrest : rest.length ≤ n := by simp at hl; omega
      by_cases hcs : isPySpace c = true
      · cases hmatch : rest.dropWhile isPySpace with
        | nil =>
          rw [sub2_space_other rest hcs (by rw [hmatch]; simp)] at hx
          rcases List.mem_cons.1 hx with rfl | hx'
          · exact Or.inl (List.mem_cons_self _ _)
          · rcases ih rest hrest x hx' with hmem | hu
            · exact Or.inl (List.mem_cons_of_mem _ hmem)
            · exact Or.inr hu
        | cons z r2 =>
          by_cases hz : z = '.'
          · subst hz
            rw [sub2_space_dot rest r2 hcs hmatch] at hx
            have hr2 : r2.length < rest.length := by
              have h1 := congrArg List.length hmatch
              have h2 : (rest.dropWhile isPySpace).length ≤ rest.length :=
                (List.dropWhile_suffix _).length_le
              simp at h1
              omega
            have hr2sub : r2 ⊆ rest := by
              intro a ha
              exact (List.dropWhile_suffix isPySpace).subset
                (hmatch ▸ List.mem_cons_of_mem _ ha)
            rcases List.mem_cons.1 hx with rfl | hx'
            · exact Or.inr rfl
            · rcases ih r2 (by omega) x hx' with hmem | hu
              · exact Or.inl (List.mem_cons_of_mem _ (hr2sub hmem))
              · exact Or.inr hu
          · rw [sub2_space_other rest hcs (by rw [hmatch]; simp [hz])] at hx
            rcases List.mem_cons.1 hx with rfl | hx'
            · exact Or.inl (List.mem_cons_self _ _)
            · rcases ih rest hrest x hx' with hmem | hu
              · exact Or.inl (List.mem_cons_of_mem _ hmem)
              · exact Or.inr hu
      · rw [sub2_nonspace rest (Bool.eq_false_iff.2 hcs)] at hx
        rcases List.mem_cons.1 hx with rfl | hx'
        · exact Or.inl (List.mem_cons_self _ _)
        · rcases ih rest hrest x hx' with hmem | hu
          · exact Or.inl (List.mem_cons_of_mem _ hmem)
          · exact Or.inr hu

theorem mem_replaceSpecial (l : Str) (x : Char) (h : x ∈ replaceSpecial l) :
    x ≠ '＿' ∧ x ≠ '·' ∧ x ≠ '・' := by
  rcases List.mem_filterMap.1 h with ⟨a, _, hfa⟩
  by_cases h1 : a = '＿'
  · rw [if_pos h1] at hfa
    simp at hfa
    subst hfa
    exact ⟨by decide, by decide, by decide⟩
  · rw [if_neg h1] at hfa
    by_cases h2 : a = '·'
    · rw [if_pos h2] at hfa
      simp at hfa
    · rw [if_neg h2] at hfa
      by_cases h3 : a = '・'
      · rw [if_pos h3] at hfa
        simp at hfa
      · rw [if_neg h3] at hfa
        simp at hfa
        subst hfa
        exact ⟨h1, h2, h3⟩

theorem replaceSpecial_fix (l : Str)
    (h : ∀ x ∈ l, x ≠ '＿' ∧ x ≠ '·' ∧ x ≠ '・') : replaceSpecial l = l := by
  induction l with
  | nil => rfl
  | cons c t ih =>
    have hc := h c (List.mem_cons_self _ _)
    rw [replaceSpecial, List.filterMap_cons, if_neg hc.1, if_neg hc.2.1,
      if_neg hc.2.2]
    exact congrArg (c :: ·) (ih (fun x hx => h x (List.mem_cons_of_mem _ hx)))

theorem pyStrip_prefix_dropWhile (l : Str) :
    pyStrip l <+: l.dropWhile isPySpace := by
  rw [pyStrip]
  have h1 : (l.dropWhile isPySpace).reverse.dropWhile isPySpace <:+
      (l.dropWhile isPySpace).reverse := List.dropWhile_suffix _
  have := List.reverse_prefix.2 h1
  rwa [List.reverse_reverse] at this

theorem pyStrip_subset (l : Str) : pyStrip l ⊆ l := fun x hx =>
  (List.dropWhile_suffix isPySpace).subset
    ((pyStrip_prefix_dropWhile l).subset hx)

theorem pyStrip_mid (l : Str) : pyStrip l <:+: l :=
  ((pyStrip_prefix_dropWhile l).isInfix).trans
    (List.dropWhile_suffix isPySpace).isInfix

theorem pyStrip_head (l : Str) (x : Char) (h : (pyStrip l).head? = some x) :
    isPySpace x = false := by
  obtain ⟨t, ht⟩ := pyStrip_prefix_dropWhile l
  have hA : (l.dropWhile isPySpace).head? = some x := by
    rw [← ht, List.head?_append, h]
    rfl
  exact head?_dropWhile_not isPySpace l x hA

theorem pyStrip_last (l : Str) (x : Char) (h : (pyStrip l).getLast? = some x) :
    isPySpace x = false := by
  rw [pyStrip, List.getLast?_reverse] at h
  exact head?_dropWhile_not isPySpace _ x h

theorem pyStrip_fix (l : Str)
    (hh : ∀ x, l.head? = some x → isPySpace x = false)
    (hl : ∀ x, l.getLast? = some x → isPySpace x = false) : pyStrip l = l := by
  rw [pyStrip, dropWhile_eq_self_of_head _ _ hh,
    dropWhile_eq_self_of_head _ _ (fun x hx => hl x (by
      rwa [List.head?_reverse] at hx)), List.reverse_reverse]

/-! ## Facts about `normalize_filename`'s output -/

theorem normalize_chainU (s : Str) :
    List.Chain' GoodU (normalize_filename s) :=
  List.Chain'.infix (sub2_preserves_goodU _ (sub1_chain (replaceSpecial s)))
    (pyStrip_mid _)

theorem normalize_chainD (s : Str) :
    List.Chain' GoodD (normalize_filename s) :=
  List.Chain'.infix (sub2_chainD (sub1 (replaceSpecial s))) (pyStrip_mid _)

theorem normalize_no_special (s : Str) (x : Char)
    (h : x ∈ normalize_filename s) : x ≠ '＿' ∧ x ≠ '·' ∧ x ≠ '・' := by
  have h2 : x ∈ sub2 (sub1 (replaceSpecial s)) := pyStrip_subset _ h
  rcases mem_sub2 _ x h2 with h3 | rfl
  · rcases mem_sub1 _ x h3 with h4 | rfl
    · exact mem_replaceSpecial _ x h4
    · exact ⟨by decide, by decide, by decide⟩
  · exact ⟨by decide, by decide, by decide⟩

theorem normalize_head (s : Str) (x : Char)
    (h : (normalize_filename s).head? = some x) : isPySpace x = false :=
  pyStrip_head _ x h

theorem normalize_last (s : Str) (x : Char)
    (h : (normalize_filename s).getLast? = some x) : isPySpace x = false :=
  pyStrip_last _ x h

/-- A string that already satisfies all the normalizer's invariants is
a fixed point of `normalize_filename`. -/
theorem normalize_fix (W : Str)
    (hU : List.Chain' GoodU W) (hD : List.Chain' GoodD W)
    (hbad : ∀ x ∈ W, x ≠ '＿' ∧ x ≠ '·' ∧ x ≠ '・')
    (hhead : ∀ x, W.head? = some x → isPySpace x = false)
    (hlast : ∀ x, W.getLast? = some x → isPySpace x = false) :
    normalize_filename W = W := by
  rw [normalize_filename, replaceSpecial_fix W hbad, sub1_fix W hU,
    sub2_fix W hD, pyStrip_fix W hhead hlast]

/-! ## Matcher inversion and computation lemmas -/

theorem splitDigits_inv : ∀ (k : Nat) (s v r : Str),
    splitDigits k s = some (v, r) →
    s = v ++ r ∧ v.length = k ∧ ∀ c ∈ v, isPyDigit c = true := by
  intro k
  induction k with
  | zero =>
    intro s v r h
    simp [splitDigits] at h
    obtain ⟨rfl, rfl⟩ := h
    exact ⟨rfl, rfl, by simp⟩
  | succ k ih =>
    intro s v r h
    cases s with
    | nil => simp [splitDigits] at h
    | cons c t =>
      simp only [splitDigits] at h
      by_cases hc : isPyDigit c = true
      · rw [if_pos hc] at h
        cases hsp : splitDigits k t with
        | none => rw [hsp] at h; simp at h
        | some p =>
          obtain ⟨v', r'⟩ := p
          rw [hsp] at h
          simp at h
          obtain ⟨rfl, rfl⟩ := h
          obtain ⟨ht, hlen, hdig⟩ := ih t v' r' hsp
          refine ⟨by rw [ht]; rfl, by simp [hlen], ?_⟩
          intro x hx
          rcases List.mem_cons.1 hx with rfl | hx'
          · exact hc
          · exact hdig x hx'
      · rw [if_neg hc] at h
        simp at h

theorem splitDigits_append : ∀ (v r : Str), (∀ c ∈ v, isPyDigit c = true) →
    splitDigits v.length (v ++ r) = some (v, r) := by
  intro v
  induction v with
  | nil => intro r _; rfl
  | cons c t ih =>
    intro r hd
    simp only [List.cons_append, List.length_cons, splitDigits, List.append_eq]
    rw [if_pos (hd c (List.mem_cons_self _ _)),
      ih r (fun x hx => hd x (List.mem_cons_of_mem _ hx))]
    rfl

theorem exts_facts : ∀ e ∈ extsList, '.' ∉ e ∧ '\n' ∉ e ∧ '_' ∉ e ∧
    e.map pyLower = e ∧ e ≠ [] := by decide

theorem dotExt_inv (y E : Str) (h : dotExt y = some E) :
    ∃ t, y = '.' :: t ∧ E ∈ extsList ∧
      (t.map pyLower = E ∨ t.map pyLower = E ++ ['\n']) := by
  cases y with
  | nil => simp [dotExt] at h
  | cons c t =>
    rw [dotExt] at h
    by_cases hc : c = '.'
    · subst hc
      rw [if_pos rfl] at h
      refine ⟨t, rfl, List.mem_of_find?_eq_some h, ?_⟩
      have := List.find?_some h
      simp only [Bool.or_eq_true, beq_iff_eq] at this
      exact this
    · rw [if_neg hc] at h
      simp at h

theorem dotExt_of_lower (e₀ : Str) (he : e₀.map pyLower ∈ extsList) :
    dotExt ('.' :: e₀) = some (e₀.map pyLower) := by
  rw [dotExt, if_pos rfl]
  rcases List.mem_cons.1 he with h | h
  · rw [h]; decide
  rcases List.mem_cons.1 h with h | h
  · rw [h]; decide
  rcases List.mem_cons.1 h with h | h
  · rw [h]; decide
  rcases List.mem_cons.1 h with h | h
  · rw [h]; decide
  rcases List.mem_cons.1 h with h | h
  · rw [h]; decide
  rcases List.mem_cons.1 h with h | h
  · rw [h]; decide
  simp at h

/-- The dot-alignment lemma: inside the tail `z ++ '.' :: e₀` of a
name, `dotExt` can only succeed at the final dot-plus-extension. -/
theorem dotExt_aligned {z e₀ : Str} (y E : Str)
    (he : '.' ∉ e₀) (hnl : '\n' ∉ e₀)
    (hy : y <:+ z ++ '.' :: e₀) (h : dotExt y = some E) :
    y = '.' :: e₀ ∧ E = e₀.map pyLower ∧ E ∈ extsList := by
  obtain ⟨t, rfl, hmem, hlow⟩ := dotExt_inv y E h
  obtain ⟨hdotE, hnlE, _, _, _⟩ := exts_facts E hmem
  have htdot : '.' ∉ t := by
    intro hdot
    have : '.' ∈ t.map pyLower := List.mem_map_of_mem pyLower hdot
    rcases hlow with hl | hl <;> rw [hl] at this
    · exact hdotE this
    · rcases List.mem_append.1 this with h' | h'
      · exact hdotE h'
      · simp at h'
  have hsfx : ('.' :: e₀) <:+ z ++ '.' :: e₀ := ⟨z, rfl⟩
  have hteq : t = e₀ := by
    rcases List.suffix_or_suffix_of_suffix hy hsfx with hcase | hcase
    · rcases List.suffix_cons_iff.1 hcase with heq | hcase'
      · simpa using heq
      · exfalso
        exact he (hcase'.subset (List.mem_cons_self '.' t))
    · rcases List.suffix_cons_iff.1 hcase with heq | hcase'
      · have h2 : e₀ = t := by simpa using heq
        exact h2.symm
      · exfalso
        exact htdot (hcase'.subset (List.mem_cons_self '.' e₀))
  subst hteq
  refine ⟨rfl, ?_, hmem⟩
  rcases hlow with hl | hl
  · exact hl.symm ▸ rfl
  · exfalso
    have : '\n' ∈ t.map pyLower := by rw [hl]; simp
    rcases List.mem_map.1 this with ⟨a, ha, hla⟩
    exact hnl (pyLower_eq_nl hla ▸ ha)

theorem optU_inv (r E : Str) (h : optU r = some E) :
    (∃ r2, r = '_' :: r2 ∧ dotExt r2 = some E) ∨ dotExt r = some E := by
  cases r with
  | nil => exact Or.inr h
  | cons c r2 =>
    rw [optU] at h
    by_cases hc : c = '_'
    · subst hc
      rw [if_pos rfl] at h
      cases hd : dotExt r2 with
      | some e => rw [hd] at h; simp at h; exact Or.inl ⟨r2, rfl, by rw [hd, h]⟩
      | none => rw [hd] at h; exact Or.inr h
    · rw [if_neg hc] at h
      exact Or.inr h

theorem afterNum_inv (r E : Str) (h : afterNum r = some E) :
    (∃ r2 N₂ r3, r = '_' :: r2 ∧ splitDigits 5 r2 = some (N₂, r3) ∧
      optU r3 = some E) ∨ optU r = some E := by
  rw [afterNum] at h
  cases ht2 : afterNumTry2 r with
  | none => rw [ht2] at h; exact Or.inr h
  | some e =>
    rw [ht2] at h
    dsimp only at h
    left
    cases r with
    | nil => simp [afterNumTry2] at ht2
    | cons c r2 =>
      rw [afterNumTry2] at ht2
      by_cases hc : c = '_'
      · subst hc
        rw [if_pos rfl] at ht2
        cases hsp : splitDigits 5 r2 with
        | none => rw [hsp] at ht2; simp at ht2
        | some p =>
          obtain ⟨N₂, r3⟩ := p
          rw [hsp] at ht2
          dsimp only at ht2
          exact ⟨r2, N₂, r3, rfl, hsp, by rw [ht2, h]⟩
      · rw [if_neg hc] at ht2
        simp at ht2

theorem tailMatch_inv (w N E : Str) (h : tailMatch w = some (N, E)) :
    ∃ r, w = N ++ r ∧ N.length = 5 ∧ (∀ c ∈ N, isPyDigit c = true) ∧
      afterNum r = some E := by
  rw [tailMatch] at h
  cases hsp : splitDigits 5 w with
  | none => rw [hsp] at h; simp at h
  | some p =>
    obtain ⟨N', r⟩ := p
    rw [hsp] at h
    dsimp only at h
    cases ha : afterNum r with
    | none => rw [ha] at h; simp at h
    | some e =>
      rw [ha] at h
      simp at h
      obtain ⟨rfl, rfl⟩ := h
      obtain ⟨hw, hlen, hdig⟩ := splitDigits_inv 5 w N' r hsp
      exact ⟨r, hw, hlen, hdig, ha⟩

theorem getLast?_mem : ∀ (l : Str) (x : Char), l.getLast? = some x → x ∈ l := by
  intro l
  induction l with
  | nil => intro x hx; simp at hx
  | cons c t ih =>
    intro x hx
    cases t with
    | nil => simp at hx; simp [hx]
    | cons d t' =>
      rw [List.getLast?_cons_cons] at hx
      exact List.mem_cons_of_mem _ (ih x hx)

theorem getLast?_append_cons (p n : Str) (x : Char) (hn : n.getLast? = some x) :
    (p ++ '_' :: n).getLast? = some x := by
  rw [List.getLast?_append]
  have : ('_' :: n).getLast? = some x := by
    cases n with
    | nil => simp at hn
    | cons d t => rw [List.getLast?_cons_cons, hn]
  rw [this]
  rfl

/-- Anatomy of a successful `tailMatch` on a tail ending in the final
dot-plus-extension: the consumed part `z` can only have one of four
shapes. -/
theorem tailMatch_shapes {z e₀ : Str} (N E : Str)
    (he : '.' ∉ e₀) (hnl : '\n' ∉ e₀)
    (h : tailMatch (z ++ '.' :: e₀) = some (N, E)) :
    E = e₀.map pyLower ∧ N.length = 5 ∧ (∀ c ∈ N, isPyDigit c = true) ∧
    (z = N ∨ z = N ++ ['_'] ∨
      ∃ N₂, N₂.length = 5 ∧ (∀ c ∈ N₂, isPyDigit c = true) ∧
        (z = N ++ '_' :: N₂ ∨ z = N ++ '_' :: N₂ ++ ['_'])) := by
  obtain ⟨r, hw, hlen, hdig, ha⟩ := tailMatch_inv _ N E h
  rcases afterNum_inv r E ha with ⟨r2, N₂, r3, hr, hsp2, ho⟩ | ho
  · obtain ⟨hr2, hlen2, hdig2⟩ := splitDigits_inv 5 r2 N₂ r3 hsp2
    rcases optU_inv r3 E ho with ⟨y₂, hr3, hd⟩ | hd
    · have hy : y₂ <:+ z ++ '.' :: e₀ := ⟨N ++ '_' :: N₂ ++ ['_'], by
        rw [hw, hr, hr2, hr3]; simp⟩
      obtain ⟨hy₂eq, hEeq, _⟩ := dotExt_aligned y₂ E he hnl hy hd
      refine ⟨hEeq, hlen, hdig,
        Or.inr (Or.inr ⟨N₂, hlen2, hdig2, Or.inr ?_⟩)⟩
      have hz : z ++ '.' :: e₀ = (N ++ '_' :: N₂ ++ ['_']) ++ '.' :: e₀ := by
        rw [hw, hr, hr2, hr3, hy₂eq]; simp
      exact List.append_cancel_right hz
    · have hy : r3 <:+ z ++ '.' :: e₀ := ⟨N ++ '_' :: N₂, by
        rw [hw, hr, hr2]; simp⟩
      obtain ⟨hr3eq, hEeq, _⟩ := dotExt_aligned r3 E he hnl hy hd
      refine ⟨hEeq, hlen, hdig,
        Or.inr (Or.inr ⟨N₂, hlen2, hdig2, Or.inl ?_⟩)⟩
      have hz : z ++ '.' :: e₀ = (N ++ '_' :: N₂) ++ '.' :: e₀ := by
        rw [hw, hr, hr2, hr3eq]; simp
      exact List.append_cancel_right hz
  · rcases optU_inv r E ho with ⟨r2, hr, hd⟩ | hd
    · have hy : r2 <:+ z ++ '.' :: e₀ := ⟨N ++ ['_'], by rw [hw, hr]; simp⟩
      obtain ⟨hr2eq, hEeq, _⟩ := dotExt_aligned r2 E he hnl hy hd
      refine ⟨hEeq, hlen, hdig, Or.inr (Or.inl ?_)⟩
      have hz : z ++ '.' :: e₀ = (N ++ ['_']) ++ '.' :: e₀ := by
        rw [hw, hr, hr2eq]; simp
      exact List.append_cancel_right hz
    · have hy : r <:+ z ++ '.' :: e₀ := ⟨N, hw.symm⟩
      obtain ⟨hreq, hEeq, _⟩ := dotExt_aligned r E he hnl hy hd
      refine ⟨hEeq, hlen, hdig, Or.inl ?_⟩
      have hz : z ++ '.' :: e₀ = N ++ '.' :: e₀ := by rw [hw, hreq]
      exact List.append_cancel_right hz

theorem optU_dot (e₀ : Str) (he : e₀.map pyLower ∈ extsList) :
    optU ('.' :: e₀) = some (e₀.map pyLower) := by
  rw [optU, if_neg (by decide)]
  exact dotExt_of_lower e₀ he

theorem optU_underscore_dot (e₀ : Str) (he : e₀.map pyLower ∈ extsList) :
    optU ('_' :: '.' :: e₀) = some (e₀.map pyLower) := by
  rw [optU, if_pos rfl, dotExt_of_lower e₀ he]

theorem afterNum_group (N₂ u e₀ : Str)
    (hN₂ : N₂.length = 5 ∧ ∀ c ∈ N₂, isPyDigit c = true)
    (hu : u = [] ∨ u = ['_']) (he : e₀.map pyLower ∈ extsList) :
    afterNum ('_' :: (N₂ ++ (u ++ '.' :: e₀))) = some (e₀.map pyLower) := by
  have hsp : splitDigits 5 (N₂ ++ (u ++ '.' :: e₀)) =
      some (N₂, u ++ '.' :: e₀) := by
    rw [← hN₂.1]
    exact splitDigits_append N₂ _ hN₂.2
  have htry : afterNumTry2 ('_' :: (N₂ ++ (u ++ '.' :: e₀))) =
      some (e₀.map pyLower) := by
    rw [afterNumTry2, if_pos rfl, hsp]
    dsimp only
    rcases hu with rfl | rfl
    · rw [List.nil_append]
      exact optU_dot e₀ he
    · rw [List.singleton_append]
      exact optU_underscore_dot e₀ he
  rw [afterNum, htry]

theorem afterNum_plain (e₀ : Str) (he : e₀.map pyLower ∈ extsList) :
    afterNum ('.' :: e₀) = some (e₀.map pyLower) := by
  have htry : afterNumTry2 ('.' :: e₀) = none := by
    rw [afterNumTry2, if_neg (by decide)]
  rw [afterNum, htry]
  exact optU_dot e₀ he

theorem tailMatch_full (N N₂ u e₀ : Str)
    (hN : N.length = 5 ∧ ∀ c ∈ N, isPyDigit c = true)
    (hN₂ : N₂.length = 5 ∧ ∀ c ∈ N₂, isPyDigit c = true)
    (hu : u = [] ∨ u = ['_']) (he : e₀.map pyLower ∈ extsList) :
    tailMatch (N ++ '_' :: (N₂ ++ (u ++ '.' :: e₀))) =
      some (N, e₀.map pyLower) := by
  have hsp : splitDigits 5 (N ++ '_' :: (N₂ ++ (u ++ '.' :: e₀))) =
      some (N, '_' :: (N₂ ++ (u ++ '.' :: e₀))) := by
    rw [← hN.1]
    exact splitDigits_append N _ hN.2
  rw [tailMatch, hsp]
  dsimp only
  rw [afterNum_group N₂ u e₀ hN₂ hu he]

theorem tailMatch_plain (N e₀ : Str)
    (hN : N.length = 5 ∧ ∀ c ∈ N, isPyDigit c = true)
    (he : e₀.map pyLower ∈ extsList) :
    tailMatch (N ++ '.' :: e₀) = some (N, e₀.map pyLower) := by
  have hsp : splitDigits 5 (N ++ '.' :: e₀) = some (N, '.' :: e₀) := by
    rw [← hN.1]
    exact splitDigits_append N _ hN.2
  rw [tailMatch, hsp]
  dsimp only
  rw [afterNum_plain e₀ he]

/-- An inner split of the middle cannot match when what follows the
split is not exactly five digits (the single-sequence tail case). -/
theorem tailMatch_fail1 (p₂ n e₀ : Str)
    (hn : n.length = 5 ∧ ∀ c ∈ n, isPyDigit c = true)
    (he : '.' ∉ e₀) (hnl : '\n' ∉ e₀)
    (hnot : ¬(p₂.length = 5 ∧ ∀ c ∈ p₂, isPyDigit c = true)) :
    tailMatch ((p₂ ++ '_' :: n) ++ '.' :: e₀) = none := by
  cases hres : tailMatch ((p₂ ++ '_' :: n) ++ '.' :: e₀) with
  | none => rfl
  | some p =>
    exfalso
    obtain ⟨N, E⟩ := p
    obtain ⟨_, hlen, hdig, hshape⟩ := tailMatch_shapes N E he hnl hres
    have hnne : n ≠ [] := by
      intro hcon
      rw [hcon] at hn
      simp at hn
    obtain ⟨y, hy, hymem⟩ : ∃ y, n.getLast? = some y ∧ y ∈ n := by
      cases hg : n.getLast? with
      | none => exact absurd (List.getLast?_eq_none_iff.1 hg) hnne
      | some y => exact ⟨y, rfl, getLast?_mem n y hg⟩
    have hydig : isPyDigit y = true := hn.2 y hymem
    rcases hshape with hz | hz | ⟨N₂, hlen2, _, hz | hz⟩
    · have := congrArg List.length hz
      simp [hn.1, hlen] at this
    · have h1 : (p₂ ++ '_' :: n).getLast? = some y :=
        getLast?_append_cons p₂ n y hy
      rw [hz] at h1
      rw [List.getLast?_concat] at h1
      simp at h1
      rw [← h1] at hydig
      exact absurd hydig (by decide)
    · have hlz := congrArg List.length hz
      simp [hn.1, hlen, hlen2] at hlz
      have hp₂ : p₂.length = 5 := by omega
      obtain ⟨hp, _⟩ := List.append_inj hz (by omega)
      apply hnot
      subst hp
      exact ⟨hp₂, hdig⟩
    · have h1 : (p₂ ++ '_' :: n).getLast? = some y :=
        getLast?_append_cons p₂ n y hy
      rw [hz] at h1
      rw [show N ++ '_' :: N₂ ++ ['_'] = (N ++ '_' :: N₂) ++ ['_'] by simp,
        List.getLast?_concat] at h1
      simp at h1
      rw [← h1] at hydig
      exact absurd hydig (by decide)

/-- An inner split of the middle cannot match when the tail carries
two sequence groups (plus optional trailing underscore). -/
theorem tailMatch_fail2 (p₂ D1 D2 u e₀ : Str)
    (hD1 : D1.length = 5 ∧ ∀ c ∈ D1, isPyDigit c = true)
    (hD2 : D2.length = 5 ∧ ∀ c ∈ D2, isPyDigit c = true)
    (hu : u = [] ∨ u = ['_'])
    (he : '.' ∉ e₀) (hnl : '\n' ∉ e₀) :
    tailMatch ((p₂ ++ '_' :: (D1 ++ '_' :: (D2 ++ u))) ++ '.' :: e₀) =
      none := by
  cases hres : tailMatch ((p₂ ++ '_' :: (D1 ++ '_' :: (D2 ++ u))) ++ '.' :: e₀)
    with
  | none => rfl
  | some p =>
    exfalso
    obtain ⟨N, E⟩ := p
    obtain ⟨_, hlen, _, hshape⟩ := tailMatch_shapes N E he hnl hres
    have hulen : u.length ≤ 1 := by rcases hu with rfl | rfl <;> simp
    have hD2ne : D2 ≠ [] := by
      intro hcon
      rw [hcon] at hD2
      simp at hD2
    have hlast : ∃ y, (p₂ ++ '_' :: (D1 ++ '_' :: (D2 ++ u))).getLast? =
        some y ∧ (isPyDigit y = true ∨ y = '_') := by
      rcases hu with rfl | rfl
      · obtain ⟨y, hy, hymem⟩ : ∃ y, D2.getLast? = some y ∧ y ∈ D2 := by
          cases hg : D2.getLast? with
          | none => exact absurd (List.getLast?_eq_none_iff.1 hg) hD2ne
          | some y => exact ⟨y, rfl, getLast?_mem D2 y hg⟩
        refine ⟨y, ?_, Or.inl (hD2.2 y hymem)⟩
        rw [List.append_nil]
        exact getLast?_append_cons p₂ _ y
          (getLast?_append_cons D1 D2 y hy)
      · refine ⟨'_', ?_, Or.inr rfl⟩
        rw [show D2 ++ ['_'] = D2 ++ ['_'] from rfl]
        apply getLast?_append_cons p₂ _ '_'
        apply getLast?_append_cons D1 _ '_'
        rw [List.getLast?_concat]
    rcases hshape with hz | hz | ⟨N₂, hlen2, hdig2, hz | hz⟩
    · have := congrArg List.length hz
      simp [hlen, hD1.1, hD2.1] at this
      omega
    · have := congrArg List.length hz
      simp [hlen, hD1.1, hD2.1] at this
      omega
    · have := congrArg List.length hz
      simp [hlen, hlen2, hD1.1, hD2.1] at this
      omega
    · have hlz := congrArg List.length hz
      simp [hlen, hlen2, hD1.1, hD2.1] at hlz
      have hp₂0 : p₂.length = 0 ∧ u.length = 0 := by omega
      have hp₂nil : p₂ = [] := List.length_eq_zero.1 hp₂0.1
      have hunil : u = [] := List.length_eq_zero.1 hp₂0.2
      subst hp₂nil
      subst hunil
      obtain ⟨y, hy, hymem⟩ : ∃ y, D2.getLast? = some y ∧ y ∈ D2 := by
        cases hg : D2.getLast? with
        | none => exact absurd (List.getLast?_eq_none_iff.1 hg) hD2ne
        | some y => exact ⟨y, rfl, getLast?_mem D2 y hg⟩
      have h1 : ([] ++ '_' :: (D1 ++ '_' :: (D2 ++ []))).getLast? = some y := by
        rw [List.append_nil]
        exact getLast?_append_cons [] _ y (getLast?_append_cons D1 D2 y hy)
      rw [hz] at h1
      rw [show N ++ '_' :: N₂ ++ ['_'] = (N ++ '_' :: N₂) ++ ['_'] by simp,
        List.getLast?_concat] at h1
      simp at h1
      have := hD2.2 y hymem
      rw [← h1] at this
      exact absurd this (by decide)

/-! ## `middleScan` and `matchName` assembly -/

theorem middleScan_found (pre : Str) : ∀ (acc rest : Str) (N E : Str),
    '\n' ∉ pre →
    (∀ p₁ p₂, pre = p₁ ++ '_' :: p₂ →
      (acc.reverse ++ p₁ = [] ∨ tailMatch (p₂ ++ '_' :: rest) = none)) →
    tailMatch rest = some (N, E) →
    acc.reverse ++ pre ≠ [] →
    middleScan acc (pre ++ '_' :: rest) = some (acc.reverse ++ pre, N, E) := by
  induction pre with
  | nil =>
    intro acc rest N E _ _ htail hne
    have hacc : acc ≠ [] := by
      intro hcon
      subst hcon
      simp at hne
    rw [List.nil_append, middleScan, if_neg (by decide),
      if_pos ⟨rfl, hacc⟩, htail]
    simp
  | cons c pre' ih =>
    intro acc rest N E hnl hsplits htail hne
    have hcnl : c ≠ '\n' := fun he => hnl (he ▸ List.mem_cons_self _ _)
    have hnl' : '\n' ∉ pre' := fun hm => hnl (List.mem_cons_of_mem _ hm)
    have hrec : middleScan (c :: acc) (pre' ++ '_' :: rest) =
        some ((c :: acc).reverse ++ pre', N, E) := by
      apply ih (c :: acc) rest N E hnl' ?_ htail ?_
      · intro p₁ p₂ hp
        rcases hsplits (c :: p₁) p₂ (by rw [hp]; rfl) with hleft | hright
        · exfalso
          have := congrArg List.length hleft
          simp at this
        · right
          exact hright
      · simp
    have hres : (c :: acc).reverse ++ pre' = acc.reverse ++ c :: pre' := by
      simp
    rw [List.cons_append, middleScan, if_neg hcnl]
    by_cases hcu : c = '_' ∧ acc ≠ []
    · rw [if_pos hcu]
      obtain ⟨hc, hacc⟩ := hcu
      rcases hsplits [] pre' (by rw [hc]; rfl) with hleft | hright
      · exfalso
        simp at hleft
        exact hacc hleft
      · rw [hright, hrec, hres]
    · rw [if_neg hcu, hrec, hres]

theorem middleScan_inv (t : Str) : ∀ (acc : Str) (M N E : Str),
    middleScan acc t = some (M, N, E) →
    ∃ m₀ r, t = m₀ ++ '_' :: r ∧ M = acc.reverse ++ m₀ ∧ '\n' ∉ m₀ ∧
      M ≠ [] ∧ tailMatch r = some (N, E) := by
  induction t with
  | nil => intro acc M N E h; simp [middleScan] at h
  | cons c rest ih =>
    intro acc M N E h
    rw [middleScan] at h
    by_cases hcnl : c = '\n'
    · rw [if_pos hcnl] at h; simp at h
    · rw [if_neg hcnl] at h
      by_cases hcu : c = '_' ∧ acc ≠ []
      · rw [if_pos hcu] at h
        cases htm : tailMatch rest with
        | some p =>
          obtain ⟨N', E'⟩ := p
          rw [htm] at h
          simp at h
          obtain ⟨rfl, rfl, rfl⟩ := h
          refine ⟨[], rest, by rw [hcu.1]; rfl, by simp, by simp, ?_, htm⟩
          simp
          intro hcon
          exact hcu.2 (by simpa using congrArg List.reverse hcon)
        | none =>
          rw [htm] at h
          obtain ⟨m₀, r, hteq, hMeq, hmnl, hMne, htail⟩ :=
            ih (c :: acc) M N E h
          refine ⟨c :: m₀, r, by rw [hteq]; rfl, ?_, ?_, hMne, htail⟩
          · rw [hMeq]; simp
          · intro hm
            rcases List.mem_cons.1 hm with rfl | hm'
            · exact hcnl rfl
            · exact hmnl hm'
      · rw [if_neg hcu] at h
        obtain ⟨m₀, r, hteq, hMeq, hmnl, hMne, htail⟩ :=
          ih (c :: acc) M N E h
        refine ⟨c :: m₀, r, by rw [hteq]; rfl, ?_, ?_, hMne, htail⟩
        · rw [hMeq]; simp
        · intro hm
          rcases List.mem_cons.1 hm with rfl | hm'
          · exact hcnl rfl
          · exact hmnl hm'

theorem takeWhile_dropWhile_append {p : Char → Bool} (f : Str) (x : Char)
    (r : Str) (hf : ∀ c ∈ f, p c = true) (hx : p x = false) :
    (f ++ x :: r).takeWhile p = f ∧ (f ++ x :: r).dropWhile p = x :: r := by
  induction f with
  | nil =>
    constructor
    · simp [List.takeWhile_cons, hx]
    · simp [List.dropWhile_cons, hx]
  | cons c t ih =>
    have hc := hf c (List.mem_cons_self _ _)
    obtain ⟨ih1, ih2⟩ := ih (fun a ha => hf a (List.mem_cons_of_mem _ ha))
    constructor
    · simp [List.takeWhile_cons, hc, ih1]
    · simp [List.dropWhile_cons, hc, ih2]

theorem splitField_append (f r : Str) (hne : f ≠ []) (hf : '_' ∉ f) :
    splitField (f ++ '_' :: r) = some (f, r) := by
  obtain ⟨h1, h2⟩ := takeWhile_dropWhile_append f '_' r
    (p := fun c => decide (c ≠ '_'))
    (fun c hc => by
      have hcne : c ≠ '_' := fun he => hf (he ▸ hc)
      simpa using hcne)
    (by decide)
  rw [splitField, h1, h2]
  cases f with
  | nil => exact absurd rfl hne
  | cons a t =>
    dsimp only
    rw [if_pos rfl]

theorem splitField_inv (s f r : Str) (h : splitField s = some (f, r)) :
    s = f ++ '_' :: r ∧ f ≠ [] ∧ '_' ∉ f := by
  rw [splitField] at h
  have hsplit := List.takeWhile_append_dropWhile (p := fun c => c ≠ '_')
    (l := s)
  cases htake : s.takeWhile (fun c => c ≠ '_') with
  | nil =>
    rw [htake] at h
    simp at h
  | cons a t =>
    rw [htake] at h
    cases hdrop : s.dropWhile (fun c => c ≠ '_') with
    | nil =>
      rw [hdrop] at h
      simp at h
    | cons x d =>
      rw [hdrop] at h
      dsimp only at h
      by_cases hx : x = '_'
      · rw [if_pos hx] at h
        simp at h
        obtain ⟨rfl, rfl⟩ := h
        subst hx
        refine ⟨?_, by simp, ?_⟩
        · rw [← htake, ← hdrop, hsplit]
        · rw [← htake]
          intro hm
          have := List.mem_takeWhile_imp hm
          simp at this
      · rw [if_neg hx] at h
        simp at h

theorem list_assoc5 (a : Str) (x1 : Char) (b : Str) (x2 : Char) (c : Str)
    (x3 : Char) (d : Str) (x4 : Char) (e : Str) :
    a ++ x1 :: b ++ x2 :: c ++ x3 :: d ++ x4 :: e =
      a ++ x1 :: (b ++ x2 :: (c ++ x3 :: (d ++ x4 :: e))) := by
  simp [List.append_assoc]

theorem matchName_build (d c h f t : Str)
    (hd : d.length = 8 ∧ ∀ x ∈ d, isPyDigit x = true)
    (hc : c ≠ [] ∧ '_' ∉ c) (hh : h ≠ [] ∧ '_' ∉ h)
    (hf : f ≠ [] ∧ '_' ∉ f) :
    matchName (d ++ '_' :: (c ++ '_' :: (h ++ '_' :: (f ++ '_' :: t)))) =
      (middleScan [] t).map
        (fun me => ⟨d, c, h, f, me.1, me.2.1, me.2.2⟩) := by
  have hsp : splitDigits 8 (d ++ '_' :: (c ++ '_' :: (h ++ '_' :: (f ++ '_' :: t)))) =
      some (d, '_' :: (c ++ '_' :: (h ++ '_' :: (f ++ '_' :: t)))) := by
    rw [← hd.1]
    exact splitDigits_append d _ hd.2
  rw [matchName, hsp]
  dsimp only
  rw [if_pos rfl, splitField_append c _ hc.1 hc.2]
  dsimp only
  rw [splitField_append h _ hh.1 hh.2]
  dsimp only
  rw [splitField_append f _ hf.1 hf.2]
  dsimp only
  cases hms : middleScan [] t with
  | none => rfl
  | some me => obtain ⟨m, num, ext⟩ := me; rfl

theorem matchName_inv (s : Str) (rec : FileNameRecord)
    (h : matchName s = some rec) :
    ∃ t r, s = rec.date ++ '_' :: (rec.content ++ '_' :: (rec.char ++ '_' ::
        (rec.face ++ '_' :: t))) ∧
      t = rec.middle ++ '_' :: r ∧
      rec.date.length = 8 ∧ (∀ x ∈ rec.date, isPyDigit x = true) ∧
      rec.content ≠ [] ∧ '_' ∉ rec.content ∧
      rec.char ≠ [] ∧ '_' ∉ rec.char ∧
      rec.face ≠ [] ∧ '_' ∉ rec.face ∧
      rec.middle ≠ [] ∧ '\n' ∉ rec.middle ∧
      tailMatch r = some (rec.num, rec.ext) := by
  rw [matchName] at h
  cases hsp : splitDigits 8 s with
  | none => rw [hsp] at h; simp at h
  | some p =>
    obtain ⟨d, s1⟩ := p
    rw [hsp] at h
    dsimp only at h
    cases s1 with
    | nil => simp at h
    | cons u s2 =>
      dsimp only at h
      by_cases hu : u = '_'
      · rw [if_pos hu] at h
        subst hu
        cases hsf1 : splitField s2 with
        | none => rw [hsf1] at h; simp at h
        | some p1 =>
          obtain ⟨c, s3⟩ := p1
          rw [hsf1] at h
          dsimp only at h
          cases hsf2 : splitField s3 with
          | none => rw [hsf2] at h; simp at h
          | some p2 =>
            obtain ⟨hh, s4⟩ := p2
            rw [hsf2] at h
            dsimp only at h
            cases hsf3 : splitField s4 with
            | none => rw [hsf3] at h; simp at h
            | some p3 =>
              obtain ⟨f, s5⟩ := p3
              rw [hsf3] at h
              dsimp only at h
              cases hms : middleScan [] s5 with
              | none => rw [hms] at h; simp at h
              | some me =>
                obtain ⟨m, num, ext⟩ := me
                rw [hms] at h
                simp at h
                subst h
                obtain ⟨hs, hdlen, hddig⟩ := splitDigits_inv 8 s d _ hsp
                obtain ⟨hs2, hcne, hcu⟩ := splitField_inv s2 c s3 hsf1
                obtain ⟨hs3, hhne, hhu⟩ := splitField_inv s3 hh s4 hsf2
                obtain ⟨hs4, hfne, hfu⟩ := splitField_inv s4 f s5 hsf3
                obtain ⟨m₀, r, hs5, hMeq, hmnl, hMne, htail⟩ :=
                  middleScan_inv s5 [] m num ext hms
                simp at hMeq
                subst hMeq
                refine ⟨s5, r, ?_, hs5, hdlen, hddig, hcne, hcu, hhne, hhu,
                  hfne, hfu, hMne, hmnl, htail⟩
                rw [hs, hs2, hs3, hs4]
      · rw [if_neg hu] at h
        simp at h

/-! ## Re-parsing the canonical name -/

theorem exts_chain : ∀ e ∈ extsList,
    List.Chain' GoodU ('.' :: e) ∧ List.Chain' GoodD ('.' :: e) ∧
    (∀ x ∈ '.' :: e, x ≠ '＿' ∧ x ≠ '·' ∧ x ≠ '・') ∧
    (∀ x, ('.' :: e).getLast? = some x → isPySpace x = false) := by
  intro e he
  rw [extsList] at he
  fin_cases he <;>
    refine ⟨?_, ?_, by decide, by decide⟩ <;>
    · simp only [List.chain'_cons, List.chain'_singleton, and_true]
      decide

theorem tailMatch_ext_mem (w N E : Str) (h : tailMatch w = some (N, E)) :
    E ∈ extsList := by
  obtain ⟨r, _, _, _, ha⟩ := tailMatch_inv w N E h
  rcases afterNum_inv r E ha with ⟨r2, N₂, r3, _, _, ho⟩ | ho
  · rcases optU_inv r3 E ho with ⟨y, _, hdx⟩ | hdx
    · obtain ⟨t, _, hmem, _⟩ := dotExt_inv _ E hdx
      exact hmem
    · obtain ⟨t, _, hmem, _⟩ := dotExt_inv _ E hdx
      exact hmem
  · rcases optU_inv r E ho with ⟨r2, _, hdx⟩ | hdx
    · obtain ⟨t, _, hmem, _⟩ := dotExt_inv _ E hdx
      exact hmem
    · obtain ⟨t, _, hmem, _⟩ := dotExt_inv _ E hdx
      exact hmem

theorem head?_append_left (P X : Str) (hP : P ≠ []) :
    (P ++ X).head? = P.head? := by
  cases P with
  | nil => exact absurd rfl hP
  | cons a t => rfl

theorem getLast?_append_right (P X : Str) (hX : X ≠ []) :
    (P ++ X).getLast? = X.getLast? := by
  rw [List.getLast?_append]
  cases hg : X.getLast? with
  | none => exact absurd (List.getLast?_eq_none_iff.1 hg) hX
  | some y => rfl

theorem matchName_canonical (d c h f m n e : Str)
    (hd : d.length = 8 ∧ ∀ x ∈ d, isPyDigit x = true)
    (hc : c ≠ [] ∧ '_' ∉ c) (hh : h ≠ [] ∧ '_' ∉ h) (hf : f ≠ [] ∧ '_' ∉ f)
    (hm : m ≠ [] ∧ '\n' ∉ m)
    (hn : n.length = 5 ∧ ∀ x ∈ n, isPyDigit x = true)
    (he : e ∈ extsList)
    (hnoseq : ¬ ∃ p d5, m = p ++ '_' :: d5 ∧ p ≠ [] ∧ d5.length = 5 ∧
      ∀ x ∈ d5, isPyDigit x = true) :
    matchName (d ++ '_' :: (c ++ '_' :: (h ++ '_' :: (f ++ '_' ::
        (m ++ '_' :: (n ++ '.' :: e)))))) =
      some ⟨d, c, h, f, m, n, e⟩ := by
  rw [matchName_build d c h f _ hd hc hh hf]
  have hfacts := exts_facts e he
  have htail : tailMatch (n ++ '.' :: e) = some (n, e) := by
    have := tailMatch_plain n e hn (by rw [hfacts.2.2.2.1]; exact he)
    rwa [hfacts.2.2.2.1] at this
  have hms : middleScan [] (m ++ '_' :: (n ++ '.' :: e)) = some (m, n, e) := by
    have hrun := middleScan_found m [] (n ++ '.' :: e) n e hm.2 ?_ htail ?_
    · simpa using hrun
    · intro p₁ p₂ hp
      by_cases hp₁ : p₁ = []
      · left
        simp [hp₁]
      · right
        have hassoc : p₂ ++ '_' :: (n ++ '.' :: e) =
            (p₂ ++ '_' :: n) ++ '.' :: e := by simp
        rw [hassoc]
        apply tailMatch_fail1 p₂ n e hn hfacts.1 hfacts.2.1
        rintro ⟨hlen5, hdig5⟩
        exact hnoseq ⟨p₁, p₂, hp, hp₁, hlen5, hdig5⟩
    · simp [hm.1]
  rw [hms]
  rfl

/-- The canonical render of a parsed record is a fixed point of
`normalize_filename`. -/
theorem canonical_normalize_fix (s d c h f m n e γ : Str)
    (hnorm : normalize_filename s =
      d ++ '_' :: (c ++ '_' :: (h ++ '_' :: (f ++ '_' ::
        (m ++ '_' :: (n ++ γ))))))
    (hdne : d ≠ []) (hn : n.length = 5 ∧ ∀ x ∈ n, isPyDigit x = true)
    (he : e ∈ extsList) :
    normalize_filename (d ++ '_' :: (c ++ '_' :: (h ++ '_' :: (f ++ '_' ::
        (m ++ '_' :: (n ++ '.' :: e)))))) =
      d ++ '_' :: (c ++ '_' :: (h ++ '_' :: (f ++ '_' ::
        (m ++ '_' :: (n ++ '.' :: e))))) := by
  have hsplit : ∀ X : Str,
      d ++ '_' :: (c ++ '_' :: (h ++ '_' :: (f ++ '_' ::
        (m ++ '_' :: (n ++ X))))) =
      (d ++ '_' :: (c ++ '_' :: (h ++ '_' :: (f ++ '_' ::
        (m ++ '_' :: n))))) ++ X := by
    intro X
    simp [List.append_assoc]
  have hnne : n ≠ [] := by
    intro hcon
    rw [hcon] at hn
    simp at hn
  have hPne : d ++ '_' :: (c ++ '_' :: (h ++ '_' :: (f ++ '_' ::
      (m ++ '_' :: n)))) ≠ [] := by simp [hdne]
  have hPpre : (d ++ '_' :: (c ++ '_' :: (h ++ '_' :: (f ++ '_' ::
      (m ++ '_' :: n))))) <+: normalize_filename s :=
    ⟨γ, by rw [hnorm, hsplit γ]⟩
  obtain ⟨y, hy, hymem⟩ : ∃ y, n.getLast? = some y ∧ y ∈ n := by
    cases hg : n.getLast? with
    | none => exact absurd (List.getLast?_eq_none_iff.1 hg) hnne
    | some y => exact ⟨y, rfl, getLast?_mem n y hg⟩
  have hydig : isPyDigit y = true := hn.2 y hymem
  have hPlast : (d ++ '_' :: (c ++ '_' :: (h ++ '_' :: (f ++ '_' ::
      (m ++ '_' :: n))))).getLast? = some y :=
    getLast?_append_cons d _ y (getLast?_append_cons c _ y
      (getLast?_append_cons h _ y (getLast?_append_cons f _ y
        (getLast?_append_cons m n y hy))))
  have hec := exts_chain e he
  rw [hsplit ('.' :: e)]
  apply normalize_fix
  · rw [List.chain'_append]
    have hchU := List.Chain'.prefix (normalize_chainU s) hPpre
    refine ⟨hchU, hec.1, ?_⟩
    intro x _ z hz
    have hz' : z = '.' := by
      have := Option.mem_def.1 hz
      simp at this
      exact this.symm
    subst hz'
    exact ⟨fun hcon => absurd hcon.2 (by decide),
      fun hcon => absurd hcon.2 (by decide)⟩
  · rw [List.chain'_append]
    have hchD := List.Chain'.prefix (normalize_chainD s) hPpre
    refine ⟨hchD, hec.2.1, ?_⟩
    intro x hx z hz
    have hx' : x = y := by
      have := Option.mem_def.1 hx
      rw [hPlast] at this
      have := Option.some.inj this
      exact this.symm
    subst hx'
    rintro ⟨hsp, _⟩
    rw [isPyDigit_not_space hydig] at hsp
    simp at hsp
  · intro x hx
    rcases List.mem_append.1 hx with hxP | hxe
    · exact normalize_no_special s x (hnorm ▸ hPpre.subset hxP)
    · exact hec.2.2.1 x hxe
  · intro x hx
    rw [head?_append_left _ _ hPne] at hx
    apply normalize_head s x
    rw [hnorm, hsplit γ, head?_append_left _ _ hPne]
    exact hx
  · intro x hx
    rw [getLast?_append_right _ _ (by simp)] at hx
    exact hec.2.2.2 x hx

/-- C1 counterexample: on a name with three trailing 5-digit groups the
canonical render re-parses differently, so render∘parse∘render∘parse is
not render∘parse. -/
theorem canonicalization_not_idempotent :
    (parse_filename ("20240102_a_b_c_x_11111_22222_33333.png".toList)).isSome
        = true ∧
    ((((parse_filename ("20240102_a_b_c_x_11111_22222_33333.png".toList)).map
          build_canonical_name).bind parse_filename).map build_canonical_name)
      ≠
      (parse_filename ("20240102_a_b_c_x_11111_22222_33333.png".toList)).map
        build_canonical_name := by decide

/-- C1 (amended): canonicalization is idempotent for every parsed name
whose `middle` field does not end in an underscore followed by exactly
five digits with a non-empty prefix before the underscore; for such a
record the canonical render re-parses to the same record, so
render∘parse∘render∘parse agrees with render∘parse.  (Without the
restriction on `middle` the property fails: see the counterexample.) -/
theorem canonicalization_idempotent (s : Str) (r : FileNameRecord)
    (hparse : parse_filename s = some r)
    (hnoseq : ¬ ∃ p d5, r.middle = p ++ '_' :: d5 ∧ p ≠ [] ∧
      d5.length = 5 ∧ ∀ x ∈ d5, isPyDigit x = true) :
    parse_filename (build_canonical_name r) = some r ∧
    (parse_filename (build_canonical_name r)).map build_canonical_name =
      (parse_filename s).map build_canonical_name := by
  have hmn : matchName (normalize_filename s) = some r := hparse
  obtain ⟨t, r', hs, ht, hd8, hddig, hcne, hcus, hhne, hhus, hfne, hfus,
    hmne, hmnl, htm⟩ := matchName_inv _ r hmn
  obtain ⟨γ, hr', hn5, hndig, _⟩ := tailMatch_inv r' r.num r.ext htm
  have hext : r.ext ∈ extsList := tailMatch_ext_mem r' r.num r.ext htm
  have hnorm : normalize_filename s =
      r.date ++ '_' :: (r.content ++ '_' :: (r.char ++ '_' :: (r.face ++ '_' ::
        (r.middle ++ '_' :: (r.num ++ γ))))) := by
    rw [hs, ht, hr']
  have hdne : r.date ≠ [] := by
    intro hcon
    rw [hcon] at hd8
    simp at hd8
  have hfix := canonical_normalize_fix s r.date r.content r.char r.face
    r.middle r.num r.ext γ hnorm hdne ⟨hn5, hndig⟩ hext
  have hW : build_canonical_name r =
      r.date ++ '_' :: (r.content ++ '_' :: (r.char ++ '_' :: (r.face ++ '_' ::
        (r.middle ++ '_' :: (r.num ++ '.' :: r.ext))))) := by
    simp [build_canonical_name]
  have hmc := matchName_canonical r.date r.content r.char r.face r.middle
    r.num r.ext ⟨hd8, hddig⟩ ⟨hcne, hcus⟩ ⟨hhne, hhus⟩ ⟨hfne, hfus⟩
    ⟨hmne, hmnl⟩ ⟨hn5, hndig⟩ hext hnoseq
  have h1 : parse_filename (build_canonical_name r) = some r := by
    rw [parse_filename, hW, hfix, hmc]
  exact ⟨h1, by rw [h1, hparse]⟩

theorem canonicalization_idempotent_witness :
    parse_filename (build_canonical_name ⟨"20240102".toList, "a".toList,
        "b".toList, "c".toList, "poseZ".toList, "00017".toList,
        "png".toList⟩) =
      some ⟨"20240102".toList, "a".toList, "b".toList, "c".toList,
        "poseZ".toList, "00017".toList, "png".toList⟩ ∧
    (parse_filename (build_canonical_name ⟨"20240102".toList, "a".toList,
        "b".toList, "c".toList, "poseZ".toList, "00017".toList,
        "png".toList⟩)).map build_canonical_name =
      (parse_filename ("20240102_a_b_c_poseZ_00017.png".toList)).map
        build_canonical_name := by
  refine canonicalization_idempotent
    ("20240102_a_b_c_poseZ_00017.png".toList) _ (by decide) ?_
  rintro ⟨p, d5, heq, hpne, hlen, hdig⟩
  have hmem : '_' ∈ (p ++ '_' :: d5) := by simp
  rw [← heq] at hmem
  revert hmem
  decide

/-- C2 counterexample: a grammatical name whose two trailing 5-digit
groups are preceded by nothing that could serve as a middle field keeps
both groups under canonicalization. -/
theorem second_sequence_not_collapsed :
    (parse_filename ("20240102_a_b_c_11111_22222.png".toList)).map
        build_canonical_name =
      some ("20240102_a_b_c_11111_22222.png".toList) ∧
    "20240102_a_b_c_11111_22222.png".toList ≠
      "20240102_a_b_c_11111.png".toList := by decide

/-- C2 (amended): for every filename whose normalized form decomposes as
date, content, character, face, a NON-EMPTY middle, then two trailing
underscore-separated 5-digit groups and an optional trailing underscore
before the extension, canonicalization keeps only the first 5-digit
group and drops the trailing underscore.  (With an empty middle slot the
parse instead uses the first group as the middle and keeps both: see the
counterexample.) -/
theorem second_sequence_collapse (s d c h f m₀ D1 D2 u e₀ : Str)
    (hnorm : normalize_filename s =
      d ++ '_' :: (c ++ '_' :: (h ++ '_' :: (f ++ '_' ::
        (m₀ ++ '_' :: (D1 ++ '_' :: (D2 ++ (u ++ '.' :: e₀))))))))
    (hd : d.length = 8 ∧ ∀ x ∈ d, isPyDigit x = true)
    (hc : c ≠ [] ∧ '_' ∉ c) (hh : h ≠ [] ∧ '_' ∉ h) (hf : f ≠ [] ∧ '_' ∉ f)
    (hm : m₀ ≠ [] ∧ '\n' ∉ m₀)
    (hD1 : D1.length = 5 ∧ ∀ x ∈ D1, isPyDigit x = true)
    (hD2 : D2.length = 5 ∧ ∀ x ∈ D2, isPyDigit x = true)
    (hu : u = [] ∨ u = ['_'])
    (he : e₀.map pyLower ∈ extsList) :
    parse_filename s = some ⟨d, c, h, f, m₀, D1, e₀.map pyLower⟩ ∧
    (parse_filename s).map build_canonical_name =
      some (d ++ '_' :: (c ++ '_' :: (h ++ '_' :: (f ++ '_' ::
        (m₀ ++ '_' :: (D1 ++ '.' :: e₀.map pyLower)))))) := by
  have hdot : '.' ∉ e₀ := by
    intro hmem
    exact (exts_facts _ he).1 (List.mem_map.2 ⟨'.', hmem, by decide⟩)
  have hnl : '\n' ∉ e₀ := by
    intro hmem
    exact (exts_facts _ he).2.1 (List.mem_map.2 ⟨'\n', hmem, by decide⟩)
  have htail : tailMatch (D1 ++ '_' :: (D2 ++ (u ++ '.' :: e₀))) =
      some (D1, e₀.map pyLower) := tailMatch_full D1 D2 u e₀ hD1 hD2 hu he
  have hms : middleScan []
      (m₀ ++ '_' :: (D1 ++ '_' :: (D2 ++ (u ++ '.' :: e₀)))) =
      some (m₀, D1, e₀.map pyLower) := by
    have hrun := middleScan_found m₀ [] _ D1 (e₀.map pyLower) hm.2 ?_ htail ?_
    · simpa using hrun
    · intro p₁ p₂ hp
      by_cases hp₁ : p₁ = []
      · left
        simp [hp₁]
      · right
        have hassoc : p₂ ++ '_' :: (D1 ++ '_' :: (D2 ++ (u ++ '.' :: e₀))) =
            (p₂ ++ '_' :: (D1 ++ '_' :: (D2 ++ u))) ++ '.' :: e₀ := by simp
        rw [hassoc]
        exact tailMatch_fail2 p₂ D1 D2 u e₀ hD1 hD2 hu hdot hnl
    · simp [hm.1]
  have h1 : parse_filename s = some ⟨d, c, h, f, m₀, D1, e₀.map pyLower⟩ := by
    rw [parse_filename, hnorm, matchName_build d c h f _ hd hc hh hf, hms]
    rfl
  refine ⟨h1, ?_⟩
  rw [h1]
  simp [build_canonical_name]

theorem second_sequence_collapse_witness :
    parse_filename
        ("20240102_illustA_charX_faceY_poseZ_00017_00017_.png".toList) =
      some ⟨"20240102".toList, "illustA".toList, "charX".toList,
        "faceY".toList, "poseZ".toList, "00017".toList, "png".toList⟩ ∧
    (parse_filename
        ("20240102_illustA_charX_faceY_poseZ_00017_00017_.png".toList)).map
        build_canonical_name =
      some ("20240102_illustA_charX_faceY_poseZ_00017.png".toList) := by
  have hmain := second_sequence_collapse
    ("20240102_illustA_charX_faceY_poseZ_00017_00017_.png".toList)
    ("20240102".toList) ("illustA".toList) ("charX".toList) ("faceY".toList)
    ("poseZ".toList) ("00017".toList) ("00017".toList) (['_']) ("png".toList)
    (by decide) (by decide) (by decide) (by decide) (by decide) (by decide)
    (by decide) (by decide) (Or.inr rfl) (by decide)
  exact ⟨hmain.1, hmain.2.trans (by decide)⟩

end ImageSorter
